import Mathlib

/-
  Verification development for par_sprune.h, the sweep-and-prune library for
  detecting axis-aligned 2D box collisions.

  Shallow-embedding conventions, chosen to mirror the C source:

  * PAR_SPRUNE_FLT coordinates are modelled as Int.  The code compares
    coordinates only with < and >, so any linearly ordered numeric type gives
    the same control flow; Int keeps every definition decidable.
  * The caller's flat aabb array is modelled as a total function
    aabbs : Nat -> Int; box i occupies offsets 4*i .. 4*i+3
    (minx, miny, maxx, maxy), exactly as in the C code.
  * PAR_SPRUNE_INT values that the algorithm stores are box ids and
    flat-array offsets, all non-negative while the algorithm runs; they are
    modelled as Nat.  The two-ints-per-pair flat pairs buffers are modelled
    as lists of pairs (each pa_push a / pa_push b in the source appends one
    tuple).
  * The pa_* growable arrays are modelled as Lean lists: pa_clear is [],
    pa_push is an append, pa_add n extends the logical length exposing
    whatever the underlying memory held (modelled by pa_resize below).
  * assert(..) failure (in par_sprune__remove) is modelled by Option: the
    functions return none exactly when the C assertion would fire.
  * par_qsort is recursive with a non-structural measure; it is modelled
    with an explicit fuel argument (fuel at least the segment length makes
    the recursion run to completion; the wrapper passes the list length, and
    every lemma shows fuel never runs out).  This keeps all definitions
    computable by kernel reduction.
-/

/-- Swap the elements at positions i and j of a list; identity when either
index is out of bounds (the C code always swaps in bounds). -/
def lswap {α : Type} (l : List α) (i j : Nat) : List α :=
  match l[i]?, l[j]? with
  | some a, some b => (l.set i b).set j a
  | _, _ => l

-- ---------------------------------------------------------------------------
-- par_qsort (lines 143-218 of par_sprune.h)
--
-- The C routine sorts nel elements of width w in place with a
-- context-taking comparator.  The element width and the byte-level swap of
-- par_qsort_cmpswap are memory-layout details; the embedding works on a
-- list of elements and a comparator cmp : a -> a -> Int (the context
-- argument is folded into the closure).  par_qsort_cmpswap's
-- compare-and-swap is inlined at each use site: a branch on 0 < cmp x y
-- whose true case swaps the two elements.
-- ---------------------------------------------------------------------------

/-- Insertion step of the small-segment sort (the nested loops at lines
174-178): the new element x is bubbled back through the reversed sorted
prefix while the element before it compares greater. -/
def par__ins {α : Type} (cmp : α → α → Int) (x : α) : List α → List α
  | [] => [x]
  | y :: t => if 0 < cmp y x then y :: par__ins cmp x t else x :: y :: t

/-- Insertion sort used by par_qsort for segments of fewer than 7 elements.
The fold processes elements left to right; the accumulator holds the sorted
prefix in reversed order (its head is the rightmost prefix element, which is
what the C inner loop compares first). -/
def par__isort {α : Type} (cmp : α → α → Int) (l : List α) : List α :=
  (l.foldl (fun acc x => par__ins cmp x acc) []).reverse

/-- Median-of-three pointer shuffle (lines 185-196).  Arguments are
(position, value) pairs for the first, middle and last element; the result
is the position the C code's l[1] points at after the three conditional
pointer swaps (the two branches of the outer if record whether the first
swap happened; the comparisons performed are exactly those of the source).
Only pointers are swapped here; the array is untouched. -/
def par__median3 {α : Type} (cmp : α → α → Int) (t0 t1 t2 : Nat × α) : Nat :=
  if 0 < cmp t0.2 t1.2 then
    if 0 < cmp t0.2 t2.2 then (if 0 < cmp t1.2 t2.2 then t1 else t2).1 else t0.1
  else
    if 0 < cmp t1.2 t2.2 then (if 0 < cmp t0.2 t2.2 then t0 else t2).1 else t1.1

/-- The partition loops of par_qsort (lines 200-215).  phase = true models
being inside the first inner for loop (pivot value at position pr), phase =
false the second (pivot at pl).  Each step either advances one cursor or
swaps and switches loops, exactly as in the source; fuel at least pr - pl
runs the loop to completion. -/
def par_qsort_part {α : Type} (cmp : α → α → Int) :
    Nat → List α → Nat → Nat → Bool → List α × Nat
  | 0, arr, pl, _, _ => (arr, pl)
  | fuel + 1, arr, pl, pr, phase =>
    if pl < pr then
      match arr[pl]?, arr[pr]? with
      | some x, some y =>
        if phase then
          if 0 < cmp x y then par_qsort_part cmp fuel (lswap arr pl pr) pl (pr - 1) false
          else par_qsort_part cmp fuel arr (pl + 1) pr true
        else
          if 0 < cmp x y then par_qsort_part cmp fuel (lswap arr pl pr) (pl + 1) pr true
          else par_qsort_part cmp fuel arr pl (pr - 1) false
      | _, _ => (arr, pl)
    else (arr, pl)

/-- Large-segment step of par_qsort (lines 181-217): swap the median-of-three
pivot into the last slot, partition, and sort the two sides with the supplied
recursive call go.  The pivot element between the two recursive calls models
the element left at position pl when the partition loop terminates. -/
def par_qsort_split {α : Type} (cmp : α → α → Int) (go : List α → List α)
    (l : List α) (v0 v1 v2 : α) : List α :=
  match par_qsort_part cmp l.length
      (lswap l (par__median3 cmp (0, v0) (l.length / 2, v1) (l.length - 1, v2))
        (l.length - 1))
      0 (l.length - 1) true with
  | (arr2, p) =>
    match arr2[p]? with
    | some pv => go (arr2.take p) ++ pv :: go (arr2.drop (p + 1))
    | none => l

/-- Body of par_qsort (lines 165-218) with explicit fuel: small segments go
through insertion sort; larger ones pick the median-of-three pivot, swap it
to the last slot, partition, and recurse on the two sides.  The out-of-fuel
and out-of-bounds fallbacks are unreachable when fuel is at least the list
length (proved below). -/
def par_qsort_go {α : Type} (cmp : α → α → Int) : Nat → List α → List α
  | 0, l => l
  | fuel + 1, l =>
    if l.length < 7 then par__isort cmp l
    else
      match l[0]?, l[l.length / 2]?, l[l.length - 1]? with
      | some v0, some v1, some v2 =>
        par_qsort_split cmp (par_qsort_go cmp fuel) l v0 v1 v2
      | _, _, _ => l

/-- Embedding of par_qsort: the wrapper supplies the list length as fuel. -/
def par_qsort {α : Type} (cmp : α → α → Int) (l : List α) : List α :=
  par_qsort_go cmp l.length l

-- ---------------------------------------------------------------------------
-- Comparators (lines 250-289 of par_sprune.h)
-- ---------------------------------------------------------------------------

/-- par__cmpinds (lines 250-263): compares two flat-array offsets first by
the coordinate they reference, then by the offset itself (deterministic
tie-break).  The sorter context is the aabbs argument. -/
def par__cmpinds (aabbs : Nat → Int) (pa pb : Nat) : Int :=
  if aabbs pa > aabbs pb then 1
  else if aabbs pa < aabbs pb then -1
  else if pa > pb then 1
  else if pa < pb then -1
  else 0

/-- par__cmppairs (lines 265-276): lexicographic comparison of id pairs. -/
def par__cmppairs (pa pb : Nat × Nat) : Int :=
  if pa.1 > pb.1 then 1
  else if pa.1 < pb.1 then -1
  else if pa.2 > pb.2 then 1
  else if pa.2 < pb.2 then -1
  else 0

/-- par__cmpfind (lines 278-289): same comparison as par__cmppairs, in the
two-argument shape bsearch expects. -/
def par__cmpfind (pa pb : Nat × Nat) : Int :=
  if pa.1 > pb.1 then 1
  else if pa.1 < pb.1 then -1
  else if pa.2 > pb.2 then 1
  else if pa.2 < pb.2 then -1
  else 0

/-- Strict order on events that par__cmpinds decides: by coordinate value,
ties broken by flat offset. -/
def keyLt (aabbs : Nat → Int) (e f : Nat) : Prop :=
  aabbs e < aabbs f ∨ (aabbs e = aabbs f ∧ e < f)

/-- The lexicographic strict order on pairs that a sorted nodup pairs list
ascends by. -/
def pairLt (p q : Nat × Nat) : Prop :=
  p.1 < q.1 ∨ (p.1 = q.1 ∧ p.2 < q.2)

-- ---------------------------------------------------------------------------
-- Event buffers (lines 300-313 of par_sprune.h)
-- ---------------------------------------------------------------------------

/-- Model of pa_clear followed by pa_add m on a growable array: the logical
length becomes m; slots the previous contents covered keep their old values
and the rest expose unspecified memory, modelled by the junk argument. -/
def pa_resize {α : Type} (old : List α) (m : Nat) (junk : α) : List α :=
  old.take m ++ List.replicate (m - old.length) junk

/-- The population loop at lines 306-313 for one axis: slot 2i gets the min
offset 4i+axis and slot 2i+1 the max offset 4i+2+axis. -/
def par__fill_indices (n axis : Nat) (buf : List Nat) : List Nat :=
  (List.range n).foldl
    (fun b i => (b.set (2 * i) (4 * i + axis)).set (2 * i + 1) (4 * i + 2 + axis))
    buf

/-- The flag-clearing part of the same loop (the flags are never read by
par_sprune_overlap; they are kept for context-state fidelity). -/
def par__fill_flags (n : Nat) (buf : List Bool) : List Bool :=
  (List.range n).foldl (fun b i => b.set i false) buf

/-- Closed form of the fully populated event buffer: slot k holds
4*(k/2) + 2*(k%2) + axis. -/
def par__init_indices (n axis : Nat) : List Nat :=
  (List.range (2 * n)).map (fun k => 4 * (k / 2) + 2 * (k % 2) + axis)

/-- Well-formed boxes: on each axis the min coordinate is at most the max
coordinate.  This is the implicit precondition of the sweep (section 4.1 of
the design: a max event must find its box in the active set). -/
def SpruneWF (aabbs : Nat → Int) (n : Nat) : Prop :=
  ∀ i, i < n → aabbs (4 * i) ≤ aabbs (4 * i + 2) ∧
    aabbs (4 * i + 1) ≤ aabbs (4 * i + 3)

instance (aabbs : Nat → Int) (n : Nat) : Decidable (SpruneWF aabbs n) := by
  unfold SpruneWF
  infer_instance

-- ---------------------------------------------------------------------------
-- par_sprune__remove (lines 231-244) and the sweep (lines 319-339)
-- ---------------------------------------------------------------------------

/-- par_sprune__remove: scan from the end for val, then shift everything
after it one slot left, which removes the last occurrence of val.  The
assert(i greater-equal 0) that fires when val is absent is modelled by
returning none. -/
def par_sprune__remove (arr : List Nat) (val : Nat) : Option (List Nat) :=
  if val ∈ arr then some ((arr.reverse.erase val).reverse) else none

/-- The per-axis sweep loop (lines 323-338): a min event pairs its box with
every active box and opens it; a max event removes its box from the active
set (none when the box is absent, which is the assert in
par_sprune__remove). -/
def par__sweep (axis : Nat) : List Nat → List Nat → List (Nat × Nat) →
    Option (List Nat × List (Nat × Nat))
  | [], active, pairs => some (active, pairs)
  | flt :: rest, active, pairs =>
    if (flt - axis) % 4 = 0 then
      par__sweep axis rest (active ++ [flt / 4])
        (pairs ++ active.map (fun a => (min a (flt / 4), max a (flt / 4))))
    else
      match par_sprune__remove active (flt / 4) with
      | some active2 => par__sweep axis rest active2 pairs
      | none => none

/-- The bsearch call at line 349, modelled by the ISO C contract of bsearch:
given the sorted pairs array, the result is non-null exactly when some
element compares equal to the key under par__cmpfind.  (bsearch itself is a
C library routine, not part of this source.) -/
def par_bsearch (key : Nat × Nat) (l : List (Nat × Nat)) : Bool :=
  l.any (fun q => par__cmpfind key q == 0)

/-- Lines 319-356 for given already-sorted per-axis event orders: run the
two sweeps, sort both candidate pair buffers, and keep the pairs of axis 0
that bsearch finds among the pairs of axis 1. -/
def par__collision_from_orders (o0 o1 : List Nat) :
    Option (List (Nat × Nat)) :=
  match par__sweep 0 o0 [] [], par__sweep 1 o1 [] [] with
  | some p0, some p1 =>
    some ((par_qsort par__cmppairs p0.2).filter
      (fun key => par_bsearch key (par_qsort par__cmppairs p1.2)))
  | _, _ => none

-- ---------------------------------------------------------------------------
-- Context and par_sprune_overlap (lines 127-141, 291-360)
-- ---------------------------------------------------------------------------

/-- The context structure (public fields of par_sprune_context merged with
the private fields of par_sprune__context).  collision_pairs is the flat
two-tuple buffer as a list of pairs; ncollision_pairs mirrors the stored
count. -/
structure par_sprune_context where
  collision_pairs : List (Nat × Nat)
  ncollision_pairs : Int
  culled : List Nat
  nculled : Int
  aabbs : Nat → Int
  naabbs : Nat
  sorted_indices0 : List Nat
  sorted_indices1 : List Nat
  overlap_flags0 : List Bool
  overlap_flags1 : List Bool

/-- Buffer of a previous context for one axis; a fresh context (calloc)
starts with empty buffers. -/
def par__prev_indices (previous : Option par_sprune_context) (axis : Nat) :
    List Nat :=
  match previous with
  | some c => if axis = 0 then c.sorted_indices0 else c.sorted_indices1
  | none => []

def par__prev_flags (previous : Option par_sprune_context) (axis : Nat) :
    List Bool :=
  match previous with
  | some c => if axis = 0 then c.overlap_flags0 else c.overlap_flags1
  | none => []

/-- The sorted event order for one axis: clear and resize the buffer to 2n
(line 301-304), populate it (lines 306-313), sort with par__cmpinds (line
321). -/
def par__sorted_events (aabbs : Nat → Int) (naabbs axis : Nat)
    (buf : List Nat) : List Nat :=
  par_qsort (par__cmpinds aabbs) (par__fill_indices naabbs axis buf)

/-- Assembly of the result context from the two sorted orders: run the
sweeps and the pair intersection; populate collision_pairs and
ncollision_pairs; the culled fields are untouched by par_sprune_overlap and
carry over from the previous context. -/
def par__mk_context (aabbs : Nat → Int) (naabbs : Nat)
    (previous : Option par_sprune_context) (so0 so1 : List Nat) :
    Option par_sprune_context :=
  match par__collision_from_orders so0 so1 with
  | none => none
  | some coll =>
    some {
      collision_pairs := coll
      ncollision_pairs := (coll.length : Int)
      culled := match previous with | some c => c.culled | none => []
      nculled := match previous with | some c => c.nculled | none => 0
      aabbs := aabbs
      naabbs := naabbs
      sorted_indices0 := so0
      sorted_indices1 := so1
      overlap_flags0 :=
        par__fill_flags naabbs (pa_resize (par__prev_flags previous 0)
          (2 * naabbs) false)
      overlap_flags1 :=
        par__fill_flags naabbs (pa_resize (par__prev_flags previous 1)
          (2 * naabbs) false) }

/-- Embedding of par_sprune_overlap (lines 291-360) for a non-negative box
count.  The result is none exactly when the assert inside
par_sprune__remove would fire during one of the sweeps.  (A negative
naabbs takes an out-of-bounds path in the C code, analysed separately
below.) -/
def par_sprune_overlap (aabbs : Nat → Int) (naabbs : Nat)
    (previous : Option par_sprune_context) : Option par_sprune_context :=
  par__mk_context aabbs naabbs previous
    (par__sorted_events aabbs naabbs 0
      (pa_resize (par__prev_indices previous 0) (2 * naabbs) 0))
    (par__sorted_events aabbs naabbs 1
      (pa_resize (par__prev_indices previous 1) (2 * naabbs) 0))

-- ---------------------------------------------------------------------------
-- Specification of the sweep
-- ---------------------------------------------------------------------------

/-- Specification predicate for the pairs the sweep of one axis emits when
the suffix S of the sorted event order is still to be processed and active
is the current active set: the canonical pair (a, b) with a less than b is
emitted iff, naming the two boxes x and y so that y is the one whose min
event lies in S, that min event precedes the max event of x in key order,
and x is either already active or has its own min event in S before y's
min. -/
def par__emits (aabbs : Nat → Int) (axis : Nat) (S active : List Nat)
    (a b : Nat) : Prop :=
  a < b ∧ ∃ x y, ((x, y) = (a, b) ∨ (x, y) = (b, a)) ∧
    (4 * y + axis) ∈ S ∧ keyLt aabbs (4 * y + axis) (4 * x + 2 + axis) ∧
    (x ∈ active ∨ ((4 * x + axis) ∈ S ∧
      keyLt aabbs (4 * x + axis) (4 * y + axis)))

-- ---------------------------------------------------------------------------
-- Axis-level characterization
-- ---------------------------------------------------------------------------

/-- The canonical sorted event order of one axis (what line 321 computes,
independent of the buffer reused). -/
def par__axis_events (aabbs : Nat → Int) (n axis : Nat) : List Nat :=
  par_qsort (par__cmpinds aabbs) (par__init_indices n axis)

/-- The exact overlap test the sweep realizes on one axis for a pair with
a less than b: the lower id's min is weakly below the higher id's max, and
the higher id's min is strictly below the lower id's max.  This asymmetry
is forced by the tie-break of par__cmpinds (the max event offset 4a+2+axis
sorts before the min event offset 4b+axis at equal coordinates when a is
less than b). -/
def par__axis_overlap (aabbs : Nat → Int) (axis a b : Nat) : Prop :=
  aabbs (4 * a + axis) ≤ aabbs (4 * b + 2 + axis) ∧
  aabbs (4 * b + axis) < aabbs (4 * a + 2 + axis)

-- ---------------------------------------------------------------------------
-- Incremental update (declared at line 53; no implementation in the header)
-- ---------------------------------------------------------------------------

/-- Validity of a context for box count n: its event orders are
permutations of the canonical event sets and its collision pairs are
exactly what its stored orders induce.  This is the state
par_sprune_overlap establishes and that par_sprune_update maintains. -/
def CtxValid (n : Nat) (ctx : par_sprune_context) : Prop :=
  ctx.naabbs = n ∧
  ctx.sorted_indices0.Perm (par__init_indices n 0) ∧
  ctx.sorted_indices1.Perm (par__init_indices n 1) ∧
  par__collision_from_orders ctx.sorted_indices0 ctx.sorted_indices1 =
    some ctx.collision_pairs ∧
  ctx.ncollision_pairs = (ctx.collision_pairs.length : Int)

instance (n : Nat) (ctx : par_sprune_context) : Decidable (CtxValid n ctx) := by
  unfold CtxValid
  exact instDecidableAnd

/-- Modelled from the spec: par_sprune_update is declared in the public API
(line 53 of par_sprune.h) but the header contains no implementation of it;
this definition follows section 4.4 of the design document.  The mutated
box data is read through newAabbs (the same pointer, new contents).  Each
axis's retained event order is re-sorted under the new coordinates; if
neither order changed, the collision set is provably unchanged and the call
reports false without re-sweeping.  Otherwise the sweeps and the pair
intersection are re-run (the sweep result depends only on the event order,
so re-running an unchanged axis equals reusing its stored candidates), and
the call reports true exactly when the resulting collision pair sequence
differs by content from the stored one. -/
def par_sprune_update (newAabbs : Nat → Int) (ctx : par_sprune_context) :
    Option (Bool × par_sprune_context) :=
  if par_qsort (par__cmpinds newAabbs) ctx.sorted_indices0 = ctx.sorted_indices0 ∧
      par_qsort (par__cmpinds newAabbs) ctx.sorted_indices1 = ctx.sorted_indices1 then
    some (false, { ctx with aabbs := newAabbs })
  else
    match par__collision_from_orders
        (par_qsort (par__cmpinds newAabbs) ctx.sorted_indices0)
        (par_qsort (par__cmpinds newAabbs) ctx.sorted_indices1) with
    | none => none
    | some coll =>
      some (decide (coll ≠ ctx.collision_pairs),
        { ctx with
          aabbs := newAabbs
          collision_pairs := coll
          ncollision_pairs := (coll.length : Int)
          sorted_indices0 := par_qsort (par__cmpinds newAabbs) ctx.sorted_indices0
          sorted_indices1 := par_qsort (par__cmpinds newAabbs) ctx.sorted_indices1 })

-- ---------------------------------------------------------------------------
-- Culler (declared at line 59; no implementation in the header)
-- ---------------------------------------------------------------------------

/-- Remaining incident-edge count of a box id in the collision graph. -/
def par__cull_degree (edges : List (Nat × Nat)) (v : Nat) : Nat :=
  (edges.filter (fun e => e.1 == v || e.2 == v)).length

/-- All endpoints of the remaining edges (with multiplicity; only
membership matters for the greedy pick). -/
def par__cull_vertices (edges : List (Nat × Nat)) : List Nat :=
  edges.map (fun e => e.1) ++ edges.map (fun e => e.2)

/-- The greedy preference: strictly higher remaining degree wins, equal
degrees go to the smaller box id. -/
def par__cull_better (edges : List (Nat × Nat)) (v w : Nat) : Bool :=
  par__cull_degree edges v > par__cull_degree edges w ||
    (par__cull_degree edges v == par__cull_degree edges w && v < w)

/-- Pick the best vertex of the remaining collision graph, none when no
edges remain. -/
def par__cull_pick (edges : List (Nat × Nat)) : Option Nat :=
  (par__cull_vertices edges).foldl
    (fun acc v => match acc with
      | none => some v
      | some w => if par__cull_better edges v w then some v else some w) none

/-- Modelled from the spec: par_sprune_cull is declared in the public API
(line 59 of par_sprune.h) but the header contains no implementation of it;
this loop follows section 4.5 of the design document: repeatedly select the
box id with the highest remaining incident-edge count (ties to the smaller
id), add it to the culled set and drop every edge touching it, until no
edge remains.  The per-component partitioning of the design does not change
the selected set, because greedy choices within a component depend only on
that component's remaining edges; the fuel (one unit per removed edge at
least) makes the recursion structural. -/
def par__cull_go : Nat → List (Nat × Nat) → List Nat → List Nat
  | 0, _, culled => culled
  | fuel + 1, edges, culled =>
    match par__cull_pick edges with
    | none => culled
    | some v =>
      par__cull_go fuel (edges.filter (fun e => !(e.1 == v || e.2 == v)))
        (culled ++ [v])

/-- Modelled from the spec: populate the culled fields from the current
collision pairs (section 4.5; see par__cull_go). -/
def par_sprune_cull (ctx : par_sprune_context) : par_sprune_context :=
  { ctx with
    culled := par__cull_go ctx.collision_pairs.length ctx.collision_pairs []
    nculled :=
      ((par__cull_go ctx.collision_pairs.length ctx.collision_pairs []).length
        : Int) }

-- ---------------------------------------------------------------------------
-- The negative-count path of par_sprune_overlap
-- ---------------------------------------------------------------------------

/-- Conversion of a PAR_SPRUNE_INT (int32_t) expression to the size_t
parameter nel of par_qsort: reduction modulo 2 to the 64th, so a negative
count becomes an enormous unsigned value. -/
def par__size_t_of_int (v : Int) : Nat := (v % (2 : Int) ^ 64).toNat

/-- The nel argument line 321 passes to par_qsort: naabbs * 2 converted to
size_t. -/
def par__overlap_sort_nel (naabbs : Int) : Nat :=
  par__size_t_of_int (naabbs * 2)

/-- The number of event slots the buffer actually holds after the pa_add
calls of lines 300-305: zero when naabbs is negative (pa___growf computes
m = max(2*cur, count + increment) which is at most 0 then). -/
def par__overlap_events_len (naabbs : Int) : Nat :=
  (max naabbs 0).toNat * 2

-- ---------------------------------------------------------------------------
-- Concrete instances used by the witnesses
-- ---------------------------------------------------------------------------

/-- The design document's concrete scenario: boxes (0,0,2,2), (1,1,3,3),
(5,5,6,6). -/
def exBoxes3 : Nat → Int :=
  fun k => ([0, 0, 2, 2, 1, 1, 3, 3, 5, 5, 6, 6] : List Int).getD k 0

/-- Two overlapping boxes (0,0,2,2) and (1,1,3,3). -/
def exBoxes2 : Nat → Int :=
  fun k => ([0, 0, 2, 2, 1, 1, 3, 3] : List Int).getD k 0

/-- The same two boxes after moving the second one away: (0,0,2,2) and
(5,5,7,7). -/
def exBoxes2b : Nat → Int :=
  fun k => ([0, 0, 2, 2, 5, 5, 7, 7] : List Int).getD k 0

/-- A single box (0,0,1,1). -/
def exBoxes1 : Nat → Int := fun k => ([0, 0, 1, 1] : List Int).getD k 0

/-- The touching configuration refuting closed-interval reporting: boxes
(0,0,2,2) and (2,0,4,2) share the edge x = 2. -/
def cexBoxes : Nat → Int :=
  fun k => ([0, 0, 2, 2, 2, 0, 4, 2] : List Int).getD k 0

/-- The context par_sprune_overlap produces for exBoxes3 (all fields
written out; the equality is by evaluation). -/
def exCtx3 : par_sprune_context :=
  { collision_pairs := [(0, 1)]
    ncollision_pairs := 1
    culled := []
    nculled := 0
    aabbs := exBoxes3
    naabbs := 3
    sorted_indices0 := [0, 4, 2, 6, 8, 10]
    sorted_indices1 := [1, 5, 3, 7, 9, 11]
    overlap_flags0 := [false, false, false, false, false, false]
    overlap_flags1 := [false, false, false, false, false, false] }

/-- The context par_sprune_overlap produces for exBoxes2. -/
def exCtx2 : par_sprune_context :=
  { collision_pairs := [(0, 1)]
    ncollision_pairs := 1
    culled := []
    nculled := 0
    aabbs := exBoxes2
    naabbs := 2
    sorted_indices0 := [0, 4, 2, 6]
    sorted_indices1 := [1, 5, 3, 7]
    overlap_flags0 := [false, false, false, false]
    overlap_flags1 := [false, false, false, false] }

theorem lswap_length {α : Type} (l : List α) (i j : Nat) :
    (lswap l i j).length = l.length := by
  unfold lswap
  cases h1 : l[i]? <;> cases h2 : l[j]? <;> simp [List.length_set]

theorem lswap_getElem?_of_ne {α : Type} (l : List α) (i j k : Nat)
    (hki : k ≠ i) (hkj : k ≠ j) : (lswap l i j)[k]? = l[k]? := by
  unfold lswap
  cases h1 : l[i]? <;> cases h2 : l[j]? <;> simp
  rw [List.getElem?_set_ne (fun h => hkj h.symm), List.getElem?_set_ne (fun h => hki h.symm)]

theorem lswap_getElem?_fst {α : Type} {l : List α} {i j : Nat} {a b : α}
    (hij : i ≠ j) (h1 : l[i]? = some a) (h2 : l[j]? = some b) :
    (lswap l i j)[i]? = some b := by
  unfold lswap
  rw [h1, h2]
  simp only
  rw [List.getElem?_set_ne (fun h => hij h.symm), List.getElem?_set]
  have hi : i < l.length := by
    by_contra hc
    rw [List.getElem?_eq_none (by omega)] at h1
    exact Option.noConfusion h1
  simp [hi]

theorem lswap_getElem?_snd {α : Type} {l : List α} {i j : Nat} {a b : α}
    (h1 : l[i]? = some a) (h2 : l[j]? = some b) :
    (lswap l i j)[j]? = some a := by
  unfold lswap
  rw [h1, h2]
  simp only
  rw [List.getElem?_set]
  have hj : j < l.length := by
    by_contra hc
    rw [List.getElem?_eq_none (by omega)] at h2
    exact Option.noConfusion h2
  simp [hj, List.length_set]

/-- Core of the swap-permutation argument: setting two positions to each
other's values is a permutation.  Stated for i strictly below j. -/
theorem set_swap_perm_aux {α : Type} :
    ∀ (l : List α) (i j : Nat) (a b : α), i < j →
      l[i]? = some a → l[j]? = some b → ((l.set i b).set j a).Perm l := by
  have zero_case : ∀ (t : List α) (k : Nat) (a b : α), t[k]? = some b →
      (b :: t.set k a).Perm (a :: t) := by
    intro t k
    induction k generalizing t with
    | zero =>
      intro a b hb
      cases t with
      | nil => simp at hb
      | cons c t2 =>
        simp at hb
        rw [hb]
        simpa using List.Perm.swap a b t2
    | succ k ih =>
      intro a b hb
      cases t with
      | nil => simp at hb
      | cons c t2 =>
        simp at hb
        have h1 : (b :: c :: t2.set k a).Perm (c :: b :: t2.set k a) :=
          List.Perm.swap c b _
        have h2 : (c :: b :: t2.set k a).Perm (c :: a :: t2) :=
          List.Perm.cons c (ih t2 a b hb)
        have h3 : (c :: a :: t2).Perm (a :: c :: t2) := List.Perm.swap a c _
        simpa using (h1.trans h2).trans h3
  intro l
  induction l with
  | nil => intro i j a b _ h1 _; simp at h1
  | cons c t ih =>
    intro i j a b hij h1 h2
    cases i with
    | zero =>
      cases j with
      | zero => omega
      | succ k =>
        simp at h1 h2
        rw [h1]
        simpa using zero_case t k a b h2
    | succ i0 =>
      cases j with
      | zero => omega
      | succ k =>
        simp at h1 h2
        simpa using List.Perm.cons c (ih i0 k a b (by omega) h1 h2)

theorem set_self_of_getElem? {α : Type} :
    ∀ (l : List α) (i : Nat) (a : α), l[i]? = some a → l.set i a = l := by
  intro l
  induction l with
  | nil => intro i a h; simp at h
  | cons c t ih =>
    intro i a h
    cases i with
    | zero => simp at h; rw [h]; simp
    | succ k => simp at h; simpa using ih k a h

theorem lswap_perm {α : Type} (l : List α) (i j : Nat) : (lswap l i j).Perm l := by
  unfold lswap
  cases h1 : l[i]? with
  | none => exact List.Perm.refl l
  | some a =>
    cases h2 : l[j]? with
    | none => exact List.Perm.refl l
    | some b =>
      simp only
      rcases Nat.lt_trichotomy i j with h | h | h
      · exact set_swap_perm_aux l i j a b h h1 h2
      · subst h
        rw [h1] at h2
        cases h2
        rw [List.set_set, set_self_of_getElem? l i a h1]
      · rw [List.set_comm _ _ _ (by omega : i ≠ j)]
        exact set_swap_perm_aux l j i b a h h2 h1

-- ---------------------------------------------------------------------------
-- Correctness of the par_qsort embedding
-- ---------------------------------------------------------------------------

theorem par__ins_perm {α : Type} (cmp : α → α → Int) (x : α) :
    ∀ r : List α, (par__ins cmp x r).Perm (x :: r) := by
  intro r
  induction r with
  | nil => simp [par__ins]
  | cons y t ih =>
    unfold par__ins
    by_cases hc : 0 < cmp y x
    · simp only [hc, if_true]
      exact (List.Perm.cons y ih).trans (List.Perm.swap x y t)
    · simp [hc]

theorem par__ins_revSorted {α : Type} {cmp : α → α → Int}
    (hA : ∀ a b, 0 < cmp a b → cmp b a ≤ 0)
    (hT : ∀ a b c, cmp a b ≤ 0 → cmp b c ≤ 0 → cmp a c ≤ 0) (x : α) :
    ∀ r : List α, r.Pairwise (fun a b => cmp b a ≤ 0) →
      (par__ins cmp x r).Pairwise (fun a b => cmp b a ≤ 0) := by
  intro r
  induction r with
  | nil => intro _; simp [par__ins]
  | cons y t ih =>
    intro h
    rw [List.pairwise_cons] at h
    unfold par__ins
    by_cases hc : 0 < cmp y x
    · simp only [hc, if_true]
      rw [List.pairwise_cons]
      refine ⟨?_, ih h.2⟩
      intro z hz
      rcases List.mem_cons.1 ((par__ins_perm cmp x t).mem_iff.1 hz) with hzx | hzt
      · rw [hzx]
        exact hA y x hc
      · exact h.1 z hzt
    · simp only [hc, if_false]
      rw [List.pairwise_cons]
      refine ⟨?_, List.pairwise_cons.2 h⟩
      intro z hz
      rcases List.mem_cons.1 hz with hzy | hzt
      · rw [hzy]
        omega
      · exact hT z y x (h.1 z hzt) (by omega)

theorem par__isort_fold_perm {α : Type} (cmp : α → α → Int) :
    ∀ (l acc : List α),
      (l.foldl (fun acc x => par__ins cmp x acc) acc).Perm (l ++ acc) := by
  intro l
  induction l with
  | nil => intro acc; simp
  | cons y t ih =>
    intro acc
    have h1 := ih (par__ins cmp y acc)
    have h2 : (t ++ par__ins cmp y acc).Perm (t ++ y :: acc) :=
      List.Perm.append_left t (par__ins_perm cmp y acc)
    have h3 : (t ++ y :: acc).Perm (y :: (t ++ acc)) := List.perm_middle
    simpa using (h1.trans h2).trans h3

theorem par__isort_perm {α : Type} (cmp : α → α → Int) (l : List α) :
    (par__isort cmp l).Perm l := by
  unfold par__isort
  have h1 := (List.reverse_perm _).trans (par__isort_fold_perm cmp l [])
  simpa using h1

theorem par__isort_fold_sorted {α : Type} {cmp : α → α → Int}
    (hA : ∀ a b, 0 < cmp a b → cmp b a ≤ 0)
    (hT : ∀ a b c, cmp a b ≤ 0 → cmp b c ≤ 0 → cmp a c ≤ 0) :
    ∀ (l acc : List α), acc.Pairwise (fun a b => cmp b a ≤ 0) →
      (l.foldl (fun acc x => par__ins cmp x acc) acc).Pairwise
        (fun a b => cmp b a ≤ 0) := by
  intro l
  induction l with
  | nil => intro acc h; simpa using h
  | cons y t ih =>
    intro acc h
    exact ih (par__ins cmp y acc) (par__ins_revSorted hA hT y acc h)

theorem par__isort_sorted {α : Type} {cmp : α → α → Int}
    (hA : ∀ a b, 0 < cmp a b → cmp b a ≤ 0)
    (hT : ∀ a b c, cmp a b ≤ 0 → cmp b c ≤ 0 → cmp a c ≤ 0) (l : List α) :
    (par__isort cmp l).Pairwise (fun a b => cmp a b ≤ 0) := by
  unfold par__isort
  rw [List.pairwise_reverse]
  exact par__isort_fold_sorted hA hT l [] (by simp)

theorem par__median3_mem {α : Type} (cmp : α → α → Int) (t0 t1 t2 : Nat × α) :
    par__median3 cmp t0 t1 t2 = t0.1 ∨ par__median3 cmp t0 t1 t2 = t1.1 ∨
      par__median3 cmp t0 t1 t2 = t2.1 := by
  unfold par__median3
  by_cases h1 : 0 < cmp t0.2 t1.2 <;>
    by_cases h2 : 0 < cmp t1.2 t2.2 <;>
    by_cases h3 : 0 < cmp t0.2 t2.2 <;>
    simp [h1, h2, h3]

theorem par_qsort_part_length {α : Type} (cmp : α → α → Int) :
    ∀ (fuel : Nat) (arr : List α) (pl pr : Nat) (ph : Bool),
      ((par_qsort_part cmp fuel arr pl pr ph).1).length = arr.length := by
  intro fuel
  induction fuel with
  | zero => intro arr pl pr ph; rfl
  | succ fuel ih =>
    intro arr pl pr ph
    unfold par_qsort_part
    split
    · split
      · split
        · split
          · rw [ih, lswap_length]
          · rw [ih]
        · split
          · rw [ih, lswap_length]
          · rw [ih]
      · rfl
    · rfl

theorem par_qsort_part_perm {α : Type} (cmp : α → α → Int) :
    ∀ (fuel : Nat) (arr : List α) (pl pr : Nat) (ph : Bool),
      ((par_qsort_part cmp fuel arr pl pr ph).1).Perm arr := by
  intro fuel
  induction fuel with
  | zero => intro arr pl pr ph; exact List.Perm.refl arr
  | succ fuel ih =>
    intro arr pl pr ph
    unfold par_qsort_part
    split
    · split
      · split
        · split
          · exact (ih _ _ _ _).trans (lswap_perm _ _ _)
          · exact ih _ _ _ _
        · split
          · exact (ih _ _ _ _).trans (lswap_perm _ _ _)
          · exact ih _ _ _ _
      · exact List.Perm.refl arr
    · exact List.Perm.refl arr

theorem par_qsort_part_bounds {α : Type} (cmp : α → α → Int) :
    ∀ (fuel : Nat) (arr : List α) (pl pr : Nat) (ph : Bool), pl ≤ pr →
      pl ≤ (par_qsort_part cmp fuel arr pl pr ph).2 ∧
        (par_qsort_part cmp fuel arr pl pr ph).2 ≤ pr := by
  intro fuel
  induction fuel with
  | zero => intro arr pl pr ph h; exact ⟨Nat.le_refl pl, h⟩
  | succ fuel ih =>
    intro arr pl pr ph h
    unfold par_qsort_part
    split
    case isTrue hlt =>
      split
      · split
        · split
          · have := ih (lswap arr pl pr) pl (pr - 1) false (by omega)
            omega
          · have := ih arr (pl + 1) pr true (by omega)
            omega
        · split
          · have := ih (lswap arr pl pr) (pl + 1) pr true (by omega)
            omega
          · have := ih arr pl (pr - 1) false (by omega)
            omega
      · exact ⟨Nat.le_refl pl, h⟩
    case isFalse hge => exact ⟨Nat.le_refl pl, h⟩

/-- Invariant of the partition loops: the pivot value v sits at pr (first
loop) or pl (second loop), everything left of pl compares at most v,
everything right of pr compares at least v.  On termination the pivot is at
the returned position with small elements on its left and large on its
right. -/
theorem par_qsort_part_spec {α : Type} {cmp : α → α → Int}
    (hA : ∀ a b, 0 < cmp a b → cmp b a ≤ 0) :
    ∀ (fuel : Nat) (arr : List α) (pl pr : Nat) (ph : Bool) (v : α),
      pr - pl ≤ fuel → pl ≤ pr → pr < arr.length →
      (if ph then arr[pr]? else arr[pl]?) = some v →
      (∀ k x, k < pl → arr[k]? = some x → cmp x v ≤ 0) →
      (∀ k y, pr < k → arr[k]? = some y → cmp v y ≤ 0) →
      ∃ arr2 p, par_qsort_part cmp fuel arr pl pr ph = (arr2, p) ∧
        arr2[p]? = some v ∧
        (∀ k x, k < p → arr2[k]? = some x → cmp x v ≤ 0) ∧
        (∀ k y, p < k → arr2[k]? = some y → cmp v y ≤ 0) := by
  intro fuel
  induction fuel with
  | zero =>
    intro arr pl pr ph v hfuel hple hpr hv hleft hright
    have hplpr : pl = pr := by omega
    subst hplpr
    refine ⟨arr, pl, rfl, ?_, hleft, ?_⟩
    · cases ph <;> simpa using hv
    · intro k y hk hky
      exact hright k y (by omega) hky
  | succ fuel ih =>
    intro arr pl pr ph v hfuel hple hpr hv hleft hright
    by_cases hlt : pl < pr
    · have hpllen : pl < arr.length := by omega
      have hx : arr[pl]? = some arr[pl] := List.getElem?_eq_getElem hpllen
      have hy : arr[pr]? = some arr[pr] := List.getElem?_eq_getElem hpr
      have hne : pl ≠ pr := by omega
      unfold par_qsort_part
      rw [if_pos hlt]
      split
      case _ x y heq1 heq2 =>
        rw [hx] at heq1
        rw [hy] at heq2
        have hxx : x = arr[pl] := (Option.some.inj heq1).symm
        have hyy : y = arr[pr] := (Option.some.inj heq2).symm
        subst hxx
        subst hyy
        cases ph with
        | true =>
          have hyv : arr[pr] = v := by
            simp only [if_pos] at hv
            rw [hv] at hy
            exact (Option.some.inj hy).symm
          by_cases hc : 0 < cmp arr[pl] arr[pr]
          · rw [if_pos rfl, if_pos hc]
            apply ih (lswap arr pl pr) pl (pr - 1) false v (by omega) (by omega)
            · rw [lswap_length]; omega
            · simp only [if_neg Bool.false_ne_true]
              rw [lswap_getElem?_fst hne hx hy, hyv]
            · intro k z hk hkz
              rw [lswap_getElem?_of_ne _ _ _ _ (by omega) (by omega)] at hkz
              exact hleft k z hk hkz
            · intro k z hk hkz
              by_cases hkpr : k = pr
              · rw [hkpr, lswap_getElem?_snd hx hy] at hkz
                have h2 := hA arr[pl] arr[pr] hc
                rw [hyv] at h2
                rw [(Option.some.inj hkz).symm]
                exact h2
              · rw [lswap_getElem?_of_ne _ _ _ _ (by omega) hkpr] at hkz
                exact hright k z (by omega) hkz
          · rw [if_pos rfl, if_neg hc]
            apply ih arr (pl + 1) pr true v (by omega) (by omega) hpr hv
            · intro k z hk hkz
              by_cases hkpl : k = pl
              · rw [hkpl, hx] at hkz
                rw [(Option.some.inj hkz).symm, ← hyv]
                omega
              · exact hleft k z (by omega) hkz
            · exact hright
        | false =>
          have hxv : arr[pl] = v := by
            simp only [if_neg Bool.false_ne_true] at hv
            rw [hv] at hx
            exact (Option.some.inj hx).symm
          by_cases hc : 0 < cmp arr[pl] arr[pr]
          · rw [if_neg Bool.false_ne_true, if_pos hc]
            apply ih (lswap arr pl pr) (pl + 1) pr true v (by omega) (by omega)
            · rw [lswap_length]; omega
            · simp only [if_pos]
              rw [lswap_getElem?_snd hx hy, hxv]
            · intro k z hk hkz
              by_cases hkpl : k = pl
              · rw [hkpl, lswap_getElem?_fst hne hx hy] at hkz
                have h2 := hA arr[pl] arr[pr] hc
                rw [hxv] at h2
                rw [(Option.some.inj hkz).symm]
                exact h2
              · rw [lswap_getElem?_of_ne _ _ _ _ (fun h => hkpl h) (by omega)] at hkz
                exact hleft k z (by omega) hkz
            · intro k z hk hkz
              rw [lswap_getElem?_of_ne _ _ _ _ (by omega) (by omega)] at hkz
              exact hright k z hk hkz
          · rw [if_neg Bool.false_ne_true, if_neg hc]
            apply ih arr pl (pr - 1) false v (by omega) (by omega) (by omega)
            · simp only [if_neg Bool.false_ne_true]
              rw [hx, hxv]
            · exact hleft
            · intro k z hk hkz
              by_cases hkpr : k = pr
              · rw [hkpr, hy] at hkz
                rw [(Option.some.inj hkz).symm, ← hxv]
                omega
              · exact hright k z (by omega) hkz
      case _ hno =>
        exfalso
        simp_all
    · have hplpr : pl = pr := by omega
      subst hplpr
      unfold par_qsort_part
      rw [if_neg hlt]
      refine ⟨arr, pl, rfl, ?_, hleft, ?_⟩
      · cases ph <;> simpa using hv
      · intro k y hk hky
        exact hright k y (by omega) hky

theorem par_qsort_split_perm {α : Type} (cmp : α → α → Int) (go : List α → List α)
    (l : List α) (v0 v1 v2 : α) (hlen : 7 ≤ l.length)
    (hgo : ∀ s : List α, s.length < l.length → (go s).Perm s) :
    (par_qsort_split cmp go l v0 v1 v2).Perm l := by
  have hmed := par__median3_mem cmp (0, v0) (l.length / 2, v1) (l.length - 1, v2)
  set m := par__median3 cmp (0, v0) (l.length / 2, v1) (l.length - 1, v2) with hm
  rcases hpp : par_qsort_part cmp l.length (lswap l m (l.length - 1)) 0
      (l.length - 1) true with ⟨arr2, p⟩
  have hlen2 : arr2.length = l.length := by
    have h := par_qsort_part_length cmp l.length (lswap l m (l.length - 1)) 0
      (l.length - 1) true
    rw [hpp] at h
    simpa [lswap_length] using h
  have hperm2 : arr2.Perm l := by
    have h := par_qsort_part_perm cmp l.length (lswap l m (l.length - 1)) 0
      (l.length - 1) true
    rw [hpp] at h
    exact h.trans (lswap_perm _ _ _)
  have hb := par_qsort_part_bounds cmp l.length (lswap l m (l.length - 1)) 0
      (l.length - 1) true (by omega)
  rw [hpp] at hb
  have hplen : p < arr2.length := by simp at hb; omega
  unfold par_qsort_split
  rw [hpp]
  dsimp only
  rw [List.getElem?_eq_getElem hplen]
  have h1 : (go (arr2.take p)).Perm (arr2.take p) := by
    apply hgo
    simp [List.length_take]
    omega
  have h2 : (go (arr2.drop (p + 1))).Perm (arr2.drop (p + 1)) := by
    apply hgo
    simp [List.length_drop]
    omega
  have h3 := List.Perm.append h1 (List.Perm.cons arr2[p] h2)
  have h4 : arr2.take p ++ arr2[p] :: arr2.drop (p + 1) = arr2 := by
    rw [← List.drop_eq_getElem_cons hplen, List.take_append_drop]
  rw [h4] at h3
  exact h3.trans hperm2

theorem par_qsort_split_sorted {α : Type} {cmp : α → α → Int}
    (hA : ∀ a b, 0 < cmp a b → cmp b a ≤ 0)
    (hT : ∀ a b c, cmp a b ≤ 0 → cmp b c ≤ 0 → cmp a c ≤ 0)
    (go : List α → List α) (l : List α) (v0 v1 v2 : α) (hlen : 7 ≤ l.length)
    (hgoP : ∀ s : List α, s.length < l.length → (go s).Perm s)
    (hgoS : ∀ s : List α, s.length < l.length →
      (go s).Pairwise (fun a b => cmp a b ≤ 0)) :
    (par_qsort_split cmp go l v0 v1 v2).Pairwise (fun a b => cmp a b ≤ 0) := by
  set m := par__median3 cmp (0, v0) (l.length / 2, v1) (l.length - 1, v2) with hm
  have hlast : l.length - 1 < (lswap l m (l.length - 1)).length := by
    rw [lswap_length]; omega
  obtain ⟨arr2, p, hpart, hv2, hl2, hr2⟩ :=
    par_qsort_part_spec hA l.length (lswap l m (l.length - 1)) 0 (l.length - 1)
      true ((lswap l m (l.length - 1))[l.length - 1]) (by omega) (by omega) hlast
      (by simp [List.getElem?_eq_getElem hlast])
      (by intro k x hk hkx; omega)
      (by
        intro k y hk hky
        rw [List.getElem?_eq_none (by rw [lswap_length]; omega)] at hky
        exact Option.noConfusion hky)
  have hlen2 : arr2.length = l.length := by
    have h := par_qsort_part_length cmp l.length (lswap l m (l.length - 1)) 0
      (l.length - 1) true
    rw [hpart] at h
    simpa [lswap_length] using h
  have hb := par_qsort_part_bounds cmp l.length (lswap l m (l.length - 1)) 0
      (l.length - 1) true (by omega)
  rw [hpart] at hb
  have hplen : p < arr2.length := by simp at hb; omega
  unfold par_qsort_split
  rw [hpart]
  dsimp only
  rw [hv2]
  rw [List.pairwise_append]
  have htk : ∀ a ∈ go (arr2.take p),
      cmp a ((lswap l m (l.length - 1))[l.length - 1]) ≤ 0 := by
    intro a ha
    have hmem : a ∈ arr2.take p :=
      (hgoP _ (by simp [List.length_take]; omega)).mem_iff.1 ha
    obtain ⟨j, hj⟩ := List.mem_iff_getElem?.1 hmem
    rw [List.getElem?_take] at hj
    by_cases hjp : j < p
    · rw [if_pos hjp] at hj
      exact hl2 j a hjp hj
    · rw [if_neg hjp] at hj
      exact Option.noConfusion hj
  have hdr : ∀ b ∈ go (arr2.drop (p + 1)),
      cmp ((lswap l m (l.length - 1))[l.length - 1]) b ≤ 0 := by
    intro b hb2
    have hmem : b ∈ arr2.drop (p + 1) :=
      (hgoP _ (by simp [List.length_drop]; omega)).mem_iff.1 hb2
    obtain ⟨j, hj⟩ := List.mem_iff_getElem?.1 hmem
    rw [List.getElem?_drop] at hj
    exact hr2 (p + 1 + j) b (by omega) hj
  refine ⟨hgoS _ (by simp [List.length_take]; omega), ?_, ?_⟩
  · rw [List.pairwise_cons]
    exact ⟨hdr, hgoS _ (by simp [List.length_drop]; omega)⟩
  · intro a ha b hb2
    rcases List.mem_cons.1 hb2 with hbv | hbd
    · rw [hbv]
      exact htk a ha
    · exact hT _ _ _ (htk a ha) (hdr b hbd)

theorem par_qsort_go_perm {α : Type} (cmp : α → α → Int) :
    ∀ (fuel : Nat) (l : List α), l.length ≤ fuel →
      (par_qsort_go cmp fuel l).Perm l := by
  intro fuel
  induction fuel with
  | zero => intro l _; exact List.Perm.refl l
  | succ fuel ih =>
    intro l hf
    unfold par_qsort_go
    by_cases hsmall : l.length < 7
    · rw [if_pos hsmall]
      exact par__isort_perm cmp l
    · rw [if_neg hsmall]
      have h0 : l[0]? = some l[0] := List.getElem?_eq_getElem (by omega)
      have h1 : l[l.length / 2]? = some l[l.length / 2] :=
        List.getElem?_eq_getElem (by omega)
      have h2 : l[l.length - 1]? = some l[l.length - 1] :=
        List.getElem?_eq_getElem (by omega)
      split
      case _ v0 v1 v2 heq0 heq1 heq2 =>
        exact par_qsort_split_perm cmp (par_qsort_go cmp fuel) l v0 v1 v2
          (by omega) (fun s hs => ih s (by omega))
      case _ hno =>
        exact absurd h2 (hno l[0] (l[l.length / 2]) (l[l.length - 1]) h0 h1)

theorem par_qsort_go_sorted {α : Type} {cmp : α → α → Int}
    (hA : ∀ a b, 0 < cmp a b → cmp b a ≤ 0)
    (hT : ∀ a b c, cmp a b ≤ 0 → cmp b c ≤ 0 → cmp a c ≤ 0) :
    ∀ (fuel : Nat) (l : List α), l.length ≤ fuel →
      (par_qsort_go cmp fuel l).Pairwise (fun a b => cmp a b ≤ 0) := by
  intro fuel
  induction fuel with
  | zero =>
    intro l h
    have : l = [] := List.eq_nil_of_length_eq_zero (by omega)
    rw [this]
    exact List.Pairwise.nil
  | succ fuel ih =>
    intro l hf
    unfold par_qsort_go
    by_cases hsmall : l.length < 7
    · rw [if_pos hsmall]
      exact par__isort_sorted hA hT l
    · rw [if_neg hsmall]
      have h0 : l[0]? = some l[0] := List.getElem?_eq_getElem (by omega)
      have h1 : l[l.length / 2]? = some l[l.length / 2] :=
        List.getElem?_eq_getElem (by omega)
      have h2 : l[l.length - 1]? = some l[l.length - 1] :=
        List.getElem?_eq_getElem (by omega)
      split
      case _ v0 v1 v2 heq0 heq1 heq2 =>
        exact par_qsort_split_sorted hA hT (par_qsort_go cmp fuel) l v0 v1 v2
          (by omega) (fun s hs => par_qsort_go_perm cmp fuel s (by omega))
          (fun s hs => ih s (by omega))
      case _ hno =>
        exact absurd h2 (hno l[0] (l[l.length / 2]) (l[l.length - 1]) h0 h1)

/-- par_qsort returns a permutation of its input, for every comparator. -/
theorem par_qsort_perm {α : Type} (cmp : α → α → Int) (l : List α) :
    (par_qsort cmp l).Perm l :=
  par_qsort_go_perm cmp l.length l (Nat.le_refl _)

/-- par_qsort sorts, provided the comparator behaves like an order:
asymmetric (a positive answer one way forces a non-positive answer the other
way) and transitive on non-positive answers. -/
theorem par_qsort_sorted {α : Type} {cmp : α → α → Int}
    (hA : ∀ a b, 0 < cmp a b → cmp b a ≤ 0)
    (hT : ∀ a b c, cmp a b ≤ 0 → cmp b c ≤ 0 → cmp a c ≤ 0) (l : List α) :
    (par_qsort cmp l).Pairwise (fun a b => cmp a b ≤ 0) :=
  par_qsort_go_sorted hA hT l.length l (Nat.le_refl _)

theorem par_qsort_length {α : Type} (cmp : α → α → Int) (l : List α) :
    (par_qsort cmp l).length = l.length :=
  (par_qsort_perm cmp l).length_eq

theorem par_qsort_mem {α : Type} (cmp : α → α → Int) (l : List α) (a : α) :
    a ∈ par_qsort cmp l ↔ a ∈ l :=
  (par_qsort_perm cmp l).mem_iff

theorem par_qsort_nodup {α : Type} (cmp : α → α → Int) {l : List α}
    (h : l.Nodup) : (par_qsort cmp l).Nodup :=
  ((par_qsort_perm cmp l).nodup_iff).2 h

theorem keyLt_asymm {aabbs : Nat → Int} {e f : Nat} (h : keyLt aabbs e f) :
    ¬ keyLt aabbs f e := by
  unfold keyLt at *
  omega

theorem keyLt_trans {aabbs : Nat → Int} {e f g : Nat} (h1 : keyLt aabbs e f)
    (h2 : keyLt aabbs f g) : keyLt aabbs e g := by
  unfold keyLt at *
  omega

theorem keyLt_irrefl {aabbs : Nat → Int} {e : Nat} : ¬ keyLt aabbs e e := by
  unfold keyLt
  omega

theorem keyLt_trichotomy {aabbs : Nat → Int} {e f : Nat} (h : e ≠ f) :
    keyLt aabbs e f ∨ keyLt aabbs f e := by
  unfold keyLt
  omega

theorem par__cmpinds_le_iff (aabbs : Nat → Int) (e f : Nat) :
    par__cmpinds aabbs e f ≤ 0 ↔ (keyLt aabbs e f ∨ e = f) := by
  by_cases hef : e = f
  · subst hef
    unfold par__cmpinds keyLt
    split_ifs <;> simp <;> omega
  · unfold par__cmpinds keyLt
    split_ifs <;> simp [hef] <;> omega

theorem par__cmpinds_pos_iff (aabbs : Nat → Int) (e f : Nat) :
    0 < par__cmpinds aabbs e f ↔ keyLt aabbs f e := by
  unfold par__cmpinds keyLt
  split_ifs <;> omega

theorem par__cmpinds_asym (aabbs : Nat → Int) :
    ∀ e f, 0 < par__cmpinds aabbs e f → par__cmpinds aabbs f e ≤ 0 := by
  intro e f
  unfold par__cmpinds
  split_ifs <;> omega

theorem par__cmpinds_trans (aabbs : Nat → Int) :
    ∀ e f g, par__cmpinds aabbs e f ≤ 0 → par__cmpinds aabbs f g ≤ 0 →
      par__cmpinds aabbs e g ≤ 0 := by
  intro e f g
  unfold par__cmpinds
  split_ifs <;> omega

theorem par__cmppairs_eq_zero_iff (p q : Nat × Nat) :
    par__cmppairs p q = 0 ↔ p = q := by
  unfold par__cmppairs
  rw [Prod.ext_iff]
  split_ifs <;> (try simp) <;> omega

theorem par__cmpfind_eq_zero_iff (p q : Nat × Nat) :
    par__cmpfind p q = 0 ↔ p = q := by
  unfold par__cmpfind
  rw [Prod.ext_iff]
  split_ifs <;> (try simp) <;> omega

theorem par__cmppairs_asym :
    ∀ p q, 0 < par__cmppairs p q → par__cmppairs q p ≤ 0 := by
  intro p q
  unfold par__cmppairs
  split_ifs <;> omega

theorem par__cmppairs_trans :
    ∀ p q r, par__cmppairs p q ≤ 0 → par__cmppairs q r ≤ 0 →
      par__cmppairs p r ≤ 0 := by
  intro p q r
  unfold par__cmppairs
  split_ifs <;> omega

theorem par__cmppairs_le_ne_pairLt {p q : Nat × Nat}
    (hle : par__cmppairs p q ≤ 0) (hne : p ≠ q) : pairLt p q := by
  unfold par__cmppairs at hle
  unfold pairLt
  rw [ne_eq, Prod.ext_iff] at hne
  split_ifs at hle <;> omega

theorem pa_resize_length {α : Type} (old : List α) (m : Nat) (junk : α) :
    (pa_resize old m junk).length = m := by
  unfold pa_resize
  simp [List.length_take]
  omega

theorem par__fill_indices_succ (n axis : Nat) (buf : List Nat) :
    par__fill_indices (n + 1) axis buf =
      ((par__fill_indices n axis buf).set (2 * n) (4 * n + axis)).set
        (2 * n + 1) (4 * n + 2 + axis) := by
  unfold par__fill_indices
  rw [List.range_succ, List.foldl_append]
  rfl

theorem par__fill_indices_length (n axis : Nat) (buf : List Nat) :
    (par__fill_indices n axis buf).length = buf.length := by
  induction n with
  | zero => rfl
  | succ n ih => rw [par__fill_indices_succ]; simp [List.length_set, ih]

theorem par__fill_indices_getElem? (n axis : Nat) (buf : List Nat)
    (hlen : 2 * n ≤ buf.length) (k : Nat) :
    (par__fill_indices n axis buf)[k]? =
      if k < 2 * n then some (4 * (k / 2) + 2 * (k % 2) + axis) else buf[k]? := by
  induction n with
  | zero => simp [par__fill_indices]
  | succ n ih =>
    rw [par__fill_indices_succ]
    by_cases hk2 : k < 2 * n
    · rw [List.getElem?_set_ne (by omega), List.getElem?_set_ne (by omega),
        ih (by omega), if_pos hk2, if_pos (by omega)]
    · by_cases hkeq : k = 2 * n
      · subst hkeq
        rw [List.getElem?_set_ne (by omega), List.getElem?_set, if_pos rfl]
        have hb : 2 * n < (par__fill_indices n axis buf).length := by
          rw [par__fill_indices_length]; omega
        rw [if_pos hb, if_pos (by omega)]
        have e1 : 2 * n / 2 = n := by omega
        have e2 : 2 * n % 2 = 0 := by omega
        rw [e1, e2]
        norm_num
      · by_cases hkeq1 : k = 2 * n + 1
        · subst hkeq1
          rw [List.getElem?_set, if_pos rfl]
          have hb : 2 * n + 1 < ((par__fill_indices n axis buf).set (2 * n)
              (4 * n + axis)).length := by
            rw [List.length_set, par__fill_indices_length]; omega
          rw [if_pos hb, if_pos (by omega)]
          have e1 : (2 * n + 1) / 2 = n := by omega
          have e2 : (2 * n + 1) % 2 = 1 := by omega
          rw [e1, e2]
        · rw [List.getElem?_set_ne (by omega), List.getElem?_set_ne (by omega),
            ih (by omega), if_neg (by omega), if_neg (by omega)]

theorem par__init_indices_getElem? (n axis k : Nat) :
    (par__init_indices n axis)[k]? =
      if k < 2 * n then some (4 * (k / 2) + 2 * (k % 2) + axis) else none := by
  unfold par__init_indices
  by_cases hk : k < 2 * n
  · rw [List.getElem?_map, List.getElem?_range hk, if_pos hk]
    rfl
  · rw [List.getElem?_map, List.getElem?_eq_none (by simp; omega), if_neg hk]
    rfl

/-- Filling every slot of a buffer of the right length yields the closed
form, whatever the buffer held before: the loop overwrites all 2n slots. -/
theorem par__fill_indices_eq_init (n axis : Nat) (buf : List Nat)
    (hlen : buf.length = 2 * n) :
    par__fill_indices n axis buf = par__init_indices n axis := by
  apply List.ext_getElem?
  intro k
  rw [par__fill_indices_getElem? n axis buf (by omega) k,
    par__init_indices_getElem? n axis k]
  by_cases hk : k < 2 * n
  · rw [if_pos hk, if_pos hk]
  · rw [if_neg hk, if_neg hk, List.getElem?_eq_none (by omega)]

theorem par__init_indices_mem (n axis e : Nat) :
    e ∈ par__init_indices n axis ↔
      ∃ i, i < n ∧ (e = 4 * i + axis ∨ e = 4 * i + 2 + axis) := by
  unfold par__init_indices
  rw [List.mem_map]
  constructor
  · rintro ⟨k, hk, hke⟩
    rw [List.mem_range] at hk
    exact ⟨k / 2, by omega, by omega⟩
  · rintro ⟨i, hi, he⟩
    rcases he with he | he
    · exact ⟨2 * i, List.mem_range.2 (by omega), by rw [he]; omega⟩
    · exact ⟨2 * i + 1, List.mem_range.2 (by omega), by rw [he]; omega⟩

theorem par__init_indices_nodup (n axis : Nat) :
    (par__init_indices n axis).Nodup := by
  unfold par__init_indices
  apply List.Nodup.map
  · intro k k2 h
    simp only at h
    omega
  · exact List.nodup_range (2 * n)

theorem SpruneWF_axis {aabbs : Nat → Int} {n : Nat} (h : SpruneWF aabbs n)
    {axis i : Nat} (haxis : axis < 2) (hi : i < n) :
    aabbs (4 * i + axis) ≤ aabbs (4 * i + 2 + axis) := by
  have h2 := h i hi
  interval_cases axis
  · simpa using h2.1
  · have e1 : 4 * i + 1 + 2 = 4 * i + 3 := by omega
    have e2 : 4 * i + 2 + 1 = 4 * i + 3 := by omega
    rw [e2]
    exact h2.2

/-- Under well-formedness, a box's min event sorts strictly before its max
event: smaller value, or equal value and smaller offset. -/
theorem keyLt_min_max {aabbs : Nat → Int} {n : Nat} (h : SpruneWF aabbs n)
    {axis i : Nat} (haxis : axis < 2) (hi : i < n) :
    keyLt aabbs (4 * i + axis) (4 * i + 2 + axis) := by
  have := SpruneWF_axis h haxis hi
  unfold keyLt
  omega

theorem par_sprune__remove_spec {arr : List Nat} {val : Nat}
    (hnd : arr.Nodup) (hmem : val ∈ arr) :
    ∃ arr2, par_sprune__remove arr val = some arr2 ∧ arr2.Nodup ∧
      ∀ b, b ∈ arr2 ↔ (b ∈ arr ∧ b ≠ val) := by
  refine ⟨(arr.reverse.erase val).reverse, by rw [par_sprune__remove, if_pos hmem],
    ?_, ?_⟩
  · rw [List.nodup_reverse]
    exact (List.nodup_reverse.2 hnd).erase val
  · intro b
    rw [List.mem_reverse, (List.nodup_reverse.2 hnd).mem_erase_iff,
      List.mem_reverse]
    tauto

theorem par_sprune__remove_none {arr : List Nat} {val : Nat}
    (hmem : val ∉ arr) : par_sprune__remove arr val = none := by
  rw [par_sprune__remove, if_neg hmem]

theorem par_bsearch_iff (key : Nat × Nat) (l : List (Nat × Nat)) :
    par_bsearch key l = true ↔ key ∈ l := by
  unfold par_bsearch
  rw [List.any_eq_true]
  constructor
  · rintro ⟨q, hq, heq⟩
    rw [beq_iff_eq, par__cmpfind_eq_zero_iff] at heq
    rw [heq]
    exact hq
  · intro h
    exact ⟨key, h, by rw [beq_iff_eq, par__cmpfind_eq_zero_iff]⟩

/-- Main sweep invariant: processing a strictly key-sorted suffix of valid
events whose active set is exactly the set of boxes opened but not yet
closed appends exactly the pairs par__emits describes, without duplicates,
and never hits the assert in par_sprune__remove. -/
theorem par__sweep_spec (aabbs : Nat → Int) (axis n : Nat) (haxis : axis < 2)
    (hwf : SpruneWF aabbs n) :
    ∀ (S : List Nat), S.Pairwise (keyLt aabbs) →
      (∀ e ∈ S, e ∈ par__init_indices n axis) →
      (∀ i, i < n → (4 * i + axis) ∈ S → (4 * i + 2 + axis) ∈ S) →
      ∀ (active : List Nat), active.Nodup →
      (∀ b, b ∈ active ↔ (b < n ∧ (4 * b + 2 + axis) ∈ S ∧ (4 * b + axis) ∉ S)) →
      ∀ (acc : List (Nat × Nat)),
      ∃ act2 ps, par__sweep axis S active acc = some (act2, acc ++ ps) ∧
        ps.Nodup ∧
        (∀ a b, (a, b) ∈ ps ↔ par__emits aabbs axis S active a b) := by
  intro S
  induction S with
  | nil =>
    intro _ _ _ active _ _ acc
    refine ⟨active, [], by simp [par__sweep], List.Pairwise.nil, ?_⟩
    intro a b
    unfold par__emits
    simp
  | cons e rest ih =>
    intro hP hsub hmm active hnd hact acc
    have hPrest : rest.Pairwise (keyLt aabbs) := (List.pairwise_cons.1 hP).2
    have hkey_e_rest : ∀ f ∈ rest, keyLt aabbs e f := (List.pairwise_cons.1 hP).1
    have he_notin_rest : e ∉ rest := fun hmem => keyLt_irrefl (hkey_e_rest e hmem)
    obtain ⟨h, hhn, hdecode⟩ := (par__init_indices_mem n axis e).1 (hsub e (by simp))
    have hsub_rest : ∀ f ∈ rest, f ∈ par__init_indices n axis :=
      fun f hf => hsub f (by simp [hf])
    rcases hdecode with hmin | hmax
    · -- min event of box h
      have hcond : (e - axis) % 4 = 0 := by omega
      have hdiv : e / 4 = h := by omega
      have hh_notin_active : h ∉ active := by
        intro hmem
        exact ((hact h).1 hmem).2.2 (by rw [← hmin]; simp)
      have hmaxh_S : (4 * h + 2 + axis) ∈ e :: rest :=
        hmm h hhn (by rw [← hmin]; simp)
      have hmaxh_rest : (4 * h + 2 + axis) ∈ rest := by
        rcases List.mem_cons.1 hmaxh_S with hc | hc
        · omega
        · exact hc
      have hminmax_rest : ∀ i, i < n → (4 * i + axis) ∈ rest →
          (4 * i + 2 + axis) ∈ rest := by
        intro i hi hM
        have hS := hmm i hi (by simp [hM])
        rcases List.mem_cons.1 hS with hc | hc
        · omega
        · exact hc
      have hnd2 : (active ++ [h]).Nodup := by
        rw [List.nodup_append]
        exact ⟨hnd, List.nodup_singleton h, by
          intro c hc hc2
          rw [List.mem_singleton] at hc2
          exact hh_notin_active (hc2 ▸ hc)⟩
      have hact2 : ∀ b, b ∈ active ++ [h] ↔
          (b < n ∧ (4 * b + 2 + axis) ∈ rest ∧ (4 * b + axis) ∉ rest) := by
        intro b
        rw [List.mem_append, List.mem_singleton]
        constructor
        · rintro (hb | hb)
          · obtain ⟨hbn, hbmax, hbmin⟩ := (hact b).1 hb
            have hbh : b ≠ h := fun hbh => hh_notin_active (hbh ▸ hb)
            refine ⟨hbn, ?_, ?_⟩
            · rcases List.mem_cons.1 hbmax with hc | hc
              · omega
              · exact hc
            · intro hc
              exact hbmin (by simp [hc])
          · subst hb
            refine ⟨hhn, hmaxh_rest, ?_⟩
            intro hc
            exact he_notin_rest (by rw [← hmin] at hc; exact hc)
        · rintro ⟨hbn, hbmax, hbmin⟩
          by_cases hbh : b = h
          · right; exact hbh
          · left
            apply (hact b).2
            refine ⟨hbn, by simp [hbmax], ?_⟩
            intro hc
            rcases List.mem_cons.1 hc with hc2 | hc2
            · omega
            · exact hbmin hc2
      obtain ⟨act2, ps2, heq, hndps, hiff⟩ := ih hPrest hsub_rest hminmax_rest
        (active ++ [h]) hnd2 hact2
        (acc ++ active.map (fun a => (min a (e / 4), max a (e / 4))))
      rw [hdiv] at heq
      refine ⟨act2,
        active.map (fun a => (min a h, max a h)) ++ ps2, ?_, ?_, ?_⟩
      · show par__sweep axis (e :: rest) active acc = _
        unfold par__sweep
        rw [if_pos hcond, hdiv, heq, List.append_assoc]
      · -- nodup of batch ++ ps2
        rw [List.nodup_append]
        refine ⟨?_, hndps, ?_⟩
        · apply List.Nodup.map_on ?_ hnd
          intro c hc c2 hc2 hcc
          have hch : c ≠ h := fun hch => hh_notin_active (hch ▸ hc)
          have hc2h : c2 ≠ h := fun hch => hh_notin_active (hch ▸ hc2)
          rw [Prod.mk.injEq] at hcc
          omega
        · intro p hp hp2
          obtain ⟨c, hc, hcp⟩ := List.mem_map.1 hp
          have hch : c ≠ h := fun hch => hh_notin_active (hch ▸ hc)
          rw [← hcp] at hp2
          obtain ⟨-, x, y, hxy, hymem, -, -⟩ :=
            (hiff (min c h) (max c h)).1 hp2
          have hy : y = c ∨ y = h := by
            rcases hxy with hc2 | hc2 <;> rw [Prod.mk.injEq] at hc2 <;> omega
          rcases hy with hy | hy
          · subst hy
            exact ((hact y).1 hc).2.2 (List.mem_cons_of_mem e hymem)
          · subst hy
            rw [hmin] at he_notin_rest
            exact he_notin_rest hymem
      · -- membership characterization
        intro a b
        rw [List.mem_append]
        constructor
        · rintro (hmem | hmem)
          · -- emitted in this batch
            obtain ⟨c, hc, hcp⟩ := List.mem_map.1 hmem
            have hch : c ≠ h := fun hch => hh_notin_active (hch ▸ hc)
            obtain ⟨hcn, hcmax, hcmin⟩ := (hact c).1 hc
            have hab : a = min c h ∧ b = max c h := by
              rw [Prod.mk.injEq] at hcp
              exact ⟨hcp.1.symm, hcp.2.symm⟩
            refine ⟨by omega, c, h, by
                rcases Nat.lt_or_ge c h with hch2 | hch2
                · left; rw [Prod.mk.injEq]; omega
                · right; rw [Prod.mk.injEq]; omega,
              by rw [← hmin]; simp, ?_, Or.inl hc⟩
            rcases List.mem_cons.1 hcmax with hc2 | hc2
            · omega
            · rw [← hmin] at *
              exact hkey_e_rest _ hc2
          · -- emitted later
            obtain ⟨hab, x, y, hxy, hymem, hkey, hx⟩ := (hiff a b).1 hmem
            refine ⟨hab, x, y, hxy, by simp [hymem], hkey, ?_⟩
            rcases hx with hx | hx
            · rcases List.mem_append.1 hx with hx2 | hx2
              · exact Or.inl hx2
              · rw [List.mem_singleton] at hx2
                subst hx2
                right
                refine ⟨by rw [← hmin]; simp, ?_⟩
                rw [← hmin]
                exact hkey_e_rest _ hymem
            · exact Or.inr ⟨by simp [hx.1], hx.2⟩
        · rintro ⟨hab, x, y, hxy, hymem, hkey, hx⟩
          rcases List.mem_cons.1 hymem with hye | hyrest
          · -- y opens now: y = h
            have hyh : y = h := by omega
            subst hyh
            rcases hx with hx | hx
            · left
              apply List.mem_map.2
              refine ⟨x, hx, ?_⟩
              rcases hxy with hc | hc <;> rw [Prod.mk.injEq] at hc <;>
                rw [Prod.mk.injEq] <;> omega
            · exfalso
              rcases List.mem_cons.1 hx.1 with hc | hc
              · have hxy2 : x = y := by omega
                rw [hxy2] at hx
                exact keyLt_irrefl hx.2
              · have h1 := hkey_e_rest _ hc
                rw [hye] at hx
                exact keyLt_asymm h1 hx.2
          · -- y opens later
            right
            apply (hiff a b).2
            refine ⟨hab, x, y, hxy, hyrest, hkey, ?_⟩
            rcases hx with hx | hx
            · exact Or.inl (List.mem_append.2 (Or.inl hx))
            · rcases List.mem_cons.1 hx.1 with hc | hc
              · have hxh : x = h := by omega
                subst hxh
                exact Or.inl (List.mem_append.2 (Or.inr (by simp)))
              · exact Or.inr ⟨hc, hx.2⟩
    · -- max event of box h
      have hcond : ¬ (e - axis) % 4 = 0 := by omega
      have hdiv : e / 4 = h := by omega
      have hminh_notin : (4 * h + axis) ∉ e :: rest := by
        intro hc
        rcases List.mem_cons.1 hc with hc2 | hc2
        · omega
        · have h1 := hkey_e_rest _ hc2
          have h2 := @keyLt_min_max aabbs n hwf axis h haxis hhn
          rw [← hmax] at h2
          exact keyLt_asymm h2 h1
      have hh_active : h ∈ active := by
        apply (hact h).2
        refine ⟨hhn, by rw [← hmax]; simp, hminh_notin⟩
      obtain ⟨arr2, hrem, hndarr2, harr2⟩ := par_sprune__remove_spec hnd hh_active
      have hminmax_rest : ∀ i, i < n → (4 * i + axis) ∈ rest →
          (4 * i + 2 + axis) ∈ rest := by
        intro i hi hM
        have hS := hmm i hi (by simp [hM])
        rcases List.mem_cons.1 hS with hc | hc
        · have hih : i = h := by omega
          subst hih
          exact absurd (by simp [hM] : (4 * i + axis) ∈ e :: rest) hminh_notin
        · exact hc
      have hact2 : ∀ b, b ∈ arr2 ↔
          (b < n ∧ (4 * b + 2 + axis) ∈ rest ∧ (4 * b + axis) ∉ rest) := by
        intro b
        rw [harr2 b]
        constructor
        · rintro ⟨hb, hbh⟩
          obtain ⟨hbn, hbmax, hbmin⟩ := (hact b).1 hb
          refine ⟨hbn, ?_, fun hc => hbmin (by simp [hc])⟩
          rcases List.mem_cons.1 hbmax with hc | hc
          · omega
          · exact hc
        · rintro ⟨hbn, hbmax, hbmin⟩
          have hbh : b ≠ h := by
            intro hbh
            subst hbh
            rw [← hmax] at hbmax
            exact he_notin_rest hbmax
          refine ⟨(hact b).2 ⟨hbn, by simp [hbmax], ?_⟩, hbh⟩
          intro hc
          rcases List.mem_cons.1 hc with hc2 | hc2
          · omega
          · exact hbmin hc2
      obtain ⟨act2, ps2, heq, hndps, hiff⟩ := ih hPrest hsub_rest hminmax_rest
        arr2 hndarr2 hact2 acc
      refine ⟨act2, ps2, ?_, hndps, ?_⟩
      · show par__sweep axis (e :: rest) active acc = _
        unfold par__sweep
        rw [if_neg hcond, hdiv, hrem]
        dsimp only
        exact heq
      · intro a b
        rw [hiff a b]
        unfold par__emits
        constructor
        · rintro ⟨hab, x, y, hxy, hymem, hkey, hx⟩
          refine ⟨hab, x, y, hxy, by simp [hymem], hkey, ?_⟩
          rcases hx with hx | hx
          · exact Or.inl ((harr2 x).1 hx).1
          · exact Or.inr ⟨by simp [hx.1], hx.2⟩
        · rintro ⟨hab, x, y, hxy, hymem, hkey, hx⟩
          have hymem2 : (4 * y + axis) ∈ rest := by
            rcases List.mem_cons.1 hymem with hc | hc
            · omega
            · exact hc
          refine ⟨hab, x, y, hxy, hymem2, hkey, ?_⟩
          rcases hx with hx | hx
          · left
            apply (harr2 x).2
            refine ⟨hx, ?_⟩
            intro hxh
            subst hxh
            rw [← hmax] at hkey
            exact keyLt_asymm (hkey_e_rest _ hymem2) hkey
          · right
            rcases List.mem_cons.1 hx.1 with hc | hc
            · omega
            · exact ⟨hc, hx.2⟩

theorem par__axis_events_perm (aabbs : Nat → Int) (n axis : Nat) :
    (par__axis_events aabbs n axis).Perm (par__init_indices n axis) :=
  par_qsort_perm _ _

theorem par__axis_events_nodup (aabbs : Nat → Int) (n axis : Nat) :
    (par__axis_events aabbs n axis).Nodup :=
  par_qsort_nodup _ (par__init_indices_nodup n axis)

theorem par__axis_events_sorted (aabbs : Nat → Int) (n axis : Nat) :
    (par__axis_events aabbs n axis).Pairwise (keyLt aabbs) := by
  have h1 : (par__axis_events aabbs n axis).Pairwise
      (fun e f => par__cmpinds aabbs e f ≤ 0) :=
    par_qsort_sorted (par__cmpinds_asym aabbs) (par__cmpinds_trans aabbs) _
  have h2 : (par__axis_events aabbs n axis).Pairwise (fun e f => e ≠ f) :=
    par__axis_events_nodup aabbs n axis
  refine (h1.and h2).imp ?_
  intro e f hef
  rcases (par__cmpinds_le_iff aabbs e f).1 hef.1 with hk | hk
  · exact hk
  · exact absurd hk hef.2

theorem par__axis_events_mem (aabbs : Nat → Int) (n axis e : Nat) :
    e ∈ par__axis_events aabbs n axis ↔ e ∈ par__init_indices n axis :=
  (par__axis_events_perm aabbs n axis).mem_iff

/-- Decoding a min event that lies in the event list: its box id is below
n. -/
theorem par__min_event_lt {n axis y : Nat} (_haxis : axis < 2)
    (hmem : (4 * y + axis) ∈ par__init_indices n axis) : y < n := by
  obtain ⟨i, hi, hd⟩ := (par__init_indices_mem n axis _).1 hmem
  omega

/-- par__emits over the full sorted order with an empty active set is
exactly the coordinate-level axis overlap condition. -/
theorem par__emits_full_iff {aabbs : Nat → Int} {n axis : Nat}
    (haxis : axis < 2) (hwf : SpruneWF aabbs n) (a b : Nat) :
    par__emits aabbs axis (par__axis_events aabbs n axis) [] a b ↔
      (a < b ∧ b < n ∧ par__axis_overlap aabbs axis a b) := by
  unfold par__emits par__axis_overlap
  constructor
  · rintro ⟨hab, x, y, hxy, hymem, hkey, hx⟩
    rcases hx with hx | hx
    · simp at hx
    obtain ⟨hxS, hkeyxy⟩ := hx
    rcases hxy with hc | hc <;> rw [Prod.mk.injEq] at hc <;>
      obtain ⟨hc1, hc2⟩ := hc <;> rw [hc1] at hxS hkeyxy <;>
      rw [hc2] at hymem hkey hkeyxy <;> rw [hc1] at hkey
    · -- x was a (already open), y was b (opening later)
      have hyn : b < n :=
        par__min_event_lt haxis ((par__axis_events_mem aabbs n axis _).1 hymem)
      have hwfy := @keyLt_min_max aabbs n hwf axis b haxis hyn
      refine ⟨hab, hyn, ?_, ?_⟩
      · have h3 := keyLt_trans hkeyxy hwfy
        unfold keyLt at h3
        omega
      · unfold keyLt at hkey
        omega
    · -- x was b, y was a
      have hxn : b < n :=
        par__min_event_lt haxis ((par__axis_events_mem aabbs n axis _).1 hxS)
      have hyn : a < n :=
        par__min_event_lt haxis ((par__axis_events_mem aabbs n axis _).1 hymem)
      have hwfy := @keyLt_min_max aabbs n hwf axis a haxis hyn
      refine ⟨hab, hxn, ?_, ?_⟩
      · unfold keyLt at hkey
        omega
      · have h3 := keyLt_trans hkeyxy hwfy
        unfold keyLt at h3
        omega
  · rintro ⟨hab, hbn, hov1, hov2⟩
    have han : a < n := by omega
    have hminaS : (4 * a + axis) ∈ par__axis_events aabbs n axis :=
      (par__axis_events_mem aabbs n axis _).2
        ((par__init_indices_mem n axis _).2 ⟨a, han, Or.inl rfl⟩)
    have hminbS : (4 * b + axis) ∈ par__axis_events aabbs n axis :=
      (par__axis_events_mem aabbs n axis _).2
        ((par__init_indices_mem n axis _).2 ⟨b, hbn, Or.inl rfl⟩)
    have htri := @keyLt_trichotomy aabbs (4 * a + axis) (4 * b + axis)
      (by omega)
    rcases htri with htri | htri
    · refine ⟨hab, a, b, Or.inl rfl, hminbS, ?_, Or.inr ⟨hminaS, htri⟩⟩
      unfold keyLt
      omega
    · refine ⟨hab, b, a, Or.inr rfl, hminaS, ?_, Or.inr ⟨hminbS, htri⟩⟩
      unfold keyLt
      omega

/-- The sweep of one axis on the canonical sorted order:  it succeeds and
its pair buffer holds exactly the axis-overlapping canonical pairs, without
duplicates. -/
theorem par__axis_sweep_spec (aabbs : Nat → Int) (n axis : Nat)
    (haxis : axis < 2) (hwf : SpruneWF aabbs n) :
    ∃ act2 ps, par__sweep axis (par__axis_events aabbs n axis) [] [] =
        some (act2, ps) ∧ ps.Nodup ∧
      (∀ a b, (a, b) ∈ ps ↔
        (a < b ∧ b < n ∧ par__axis_overlap aabbs axis a b)) := by
  obtain ⟨act2, ps, heq, hnd, hiff⟩ :=
    par__sweep_spec aabbs axis n haxis hwf (par__axis_events aabbs n axis)
      (par__axis_events_sorted aabbs n axis)
      (fun e he => (par__axis_events_mem aabbs n axis e).1 he)
      (fun i hi _ => (par__axis_events_mem aabbs n axis _).2
        ((par__init_indices_mem n axis _).2 ⟨i, hi, Or.inr rfl⟩))
      [] List.nodup_nil
      (by
        intro b
        simp only [List.not_mem_nil, false_iff]
        rintro ⟨hbn, -, hbmin⟩
        exact hbmin ((par__axis_events_mem aabbs n axis _).2
          ((par__init_indices_mem n axis _).2 ⟨b, hbn, Or.inl rfl⟩)))
      []
  refine ⟨act2, ps, by simpa using heq, hnd, ?_⟩
  intro a b
  rw [hiff a b]
  exact par__emits_full_iff haxis hwf a b

-- ---------------------------------------------------------------------------
-- The pair intersection and the full overlap pipeline
-- ---------------------------------------------------------------------------

/-- Full characterization of par__collision_from_orders on the canonical
sorted orders: it succeeds, its result is duplicate-free, strictly
ascending in the lexicographic pair order, canonical (first below second,
ids in range), and holds exactly the pairs overlapping on both axes in the
code's sense. -/
theorem par__collision_spec (aabbs : Nat → Int) (n : Nat)
    (hwf : SpruneWF aabbs n) :
    ∃ coll, par__collision_from_orders (par__axis_events aabbs n 0)
        (par__axis_events aabbs n 1) = some coll ∧
      coll.Nodup ∧ coll.Pairwise pairLt ∧
      (∀ p ∈ coll, p.1 < p.2 ∧ p.2 < n) ∧
      (∀ a b, (a, b) ∈ coll ↔ (a < b ∧ b < n ∧
        par__axis_overlap aabbs 0 a b ∧ par__axis_overlap aabbs 1 a b)) := by
  obtain ⟨act0, ps0, heq0, hnd0, hiff0⟩ :=
    par__axis_sweep_spec aabbs n 0 (by omega) hwf
  obtain ⟨act1, ps1, heq1, hnd1, hiff1⟩ :=
    par__axis_sweep_spec aabbs n 1 (by omega) hwf
  unfold par__collision_from_orders
  rw [heq0, heq1]
  dsimp only
  have hperm0 : (par_qsort par__cmppairs ps0).Perm ps0 := par_qsort_perm _ _
  have hperm1 : (par_qsort par__cmppairs ps1).Perm ps1 := par_qsort_perm _ _
  have hndsp0 : (par_qsort par__cmppairs ps0).Nodup := par_qsort_nodup _ hnd0
  have hsorted0 : (par_qsort par__cmppairs ps0).Pairwise
      (fun p q => par__cmppairs p q ≤ 0) :=
    par_qsort_sorted par__cmppairs_asym par__cmppairs_trans ps0
  have hmemcoll : ∀ a b, ((a, b) ∈ (par_qsort par__cmppairs ps0).filter
      (fun key => par_bsearch key (par_qsort par__cmppairs ps1))) ↔
      ((a, b) ∈ ps0 ∧ (a, b) ∈ ps1) := by
    intro a b
    rw [List.mem_filter, par_bsearch_iff, hperm0.mem_iff, hperm1.mem_iff]
  refine ⟨_, rfl, ?_, ?_, ?_, ?_⟩
  · exact hndsp0.filter _
  · have hstrict : (par_qsort par__cmppairs ps0).Pairwise pairLt := by
      refine (hsorted0.and hndsp0).imp ?_
      intro p q hpq
      exact par__cmppairs_le_ne_pairLt hpq.1 hpq.2
    exact hstrict.filter _
  · intro p hp
    have h2 := (hmemcoll p.1 p.2).1 (by simpa using hp)
    have h3 := (hiff0 p.1 p.2).1 h2.1
    exact ⟨h3.1, h3.2.1⟩
  · intro a b
    rw [hmemcoll a b, hiff0 a b, hiff1 a b]
    constructor
    · rintro ⟨⟨hab, hbn, h0⟩, ⟨-, -, h1⟩⟩
      exact ⟨hab, hbn, h0, h1⟩
    · rintro ⟨hab, hbn, h0, h1⟩
      exact ⟨⟨hab, hbn, h0⟩, ⟨hab, hbn, h1⟩⟩

/-- par_sprune_overlap computes the same sorted event orders whatever
context is reused: the population loop overwrites every slot of the resized
buffers. -/
theorem par_sprune_overlap_eq (aabbs : Nat → Int) (n : Nat)
    (previous : Option par_sprune_context) :
    par_sprune_overlap aabbs n previous =
      par__mk_context aabbs n previous (par__axis_events aabbs n 0)
        (par__axis_events aabbs n 1) := by
  unfold par_sprune_overlap par__sorted_events par__axis_events
  rw [par__fill_indices_eq_init n 0 _ (pa_resize_length _ _ _),
    par__fill_indices_eq_init n 1 _ (pa_resize_length _ _ _)]

/-- Master lemma: for well-formed boxes par_sprune_overlap succeeds (with
any previous context), stores the canonical sorted orders, and its
collision_pairs field is the canonical characterized collision list. -/
theorem par_sprune_overlap_spec (aabbs : Nat → Int) (n : Nat)
    (hwf : SpruneWF aabbs n) (previous : Option par_sprune_context) :
    ∃ ctx, par_sprune_overlap aabbs n previous = some ctx ∧
      ctx.collision_pairs.Nodup ∧ ctx.collision_pairs.Pairwise pairLt ∧
      (∀ p ∈ ctx.collision_pairs, p.1 < p.2 ∧ p.2 < n) ∧
      (∀ a b, (a, b) ∈ ctx.collision_pairs ↔ (a < b ∧ b < n ∧
        par__axis_overlap aabbs 0 a b ∧ par__axis_overlap aabbs 1 a b)) ∧
      ctx.ncollision_pairs = (ctx.collision_pairs.length : Int) ∧
      ctx.sorted_indices0 = par__axis_events aabbs n 0 ∧
      ctx.sorted_indices1 = par__axis_events aabbs n 1 ∧
      ctx.naabbs = n := by
  obtain ⟨coll, hcoll, hnd, hpair, hcanon, hiff⟩ := par__collision_spec aabbs n hwf
  rw [par_sprune_overlap_eq]
  unfold par__mk_context
  rw [hcoll]
  exact ⟨_, rfl, hnd, hpair, hcanon, hiff, rfl, rfl, rfl, rfl⟩

/-- The collision output of par_sprune_overlap does not depend on the
reused context: only the culled fields and flag buffers can differ. -/
theorem par_sprune_overlap_prev_eq (aabbs : Nat → Int) (n : Nat)
    (previous : Option par_sprune_context) :
    (par_sprune_overlap aabbs n previous).map
        (fun c => (c.collision_pairs, c.ncollision_pairs)) =
      (par_sprune_overlap aabbs n none).map
        (fun c => (c.collision_pairs, c.ncollision_pairs)) := by
  rw [par_sprune_overlap_eq aabbs n previous, par_sprune_overlap_eq aabbs n none]
  unfold par__mk_context
  cases par__collision_from_orders (par__axis_events aabbs n 0)
    (par__axis_events aabbs n 1) <;> rfl

/-- Sorting any permutation of the canonical event set with par__cmpinds
gives the canonical sorted order: the comparator is a total order, so the
sorted permutation is unique. -/
theorem par__sorted_events_unique {aabbs : Nat → Int} {n axis : Nat}
    {o : List Nat} (hperm : o.Perm (par__init_indices n axis)) :
    par_qsort (par__cmpinds aabbs) o = par__axis_events aabbs n axis := by
  haveI : IsAntisymm Nat (fun e f => par__cmpinds aabbs e f ≤ 0) := ⟨by
    intro e f h1 h2
    rcases (par__cmpinds_le_iff aabbs e f).1 h1 with hk | hk
    · rcases (par__cmpinds_le_iff aabbs f e).1 h2 with hk2 | hk2
      · exact absurd hk (keyLt_asymm hk2)
      · exact hk2.symm
    · exact hk⟩
  apply List.eq_of_perm_of_sorted (r := fun e f => par__cmpinds aabbs e f ≤ 0)
  · exact (par_qsort_perm _ o).trans (hperm.trans
      (par__axis_events_perm aabbs n axis).symm)
  · exact par_qsort_sorted (par__cmpinds_asym aabbs) (par__cmpinds_trans aabbs) o
  · exact par_qsort_sorted (par__cmpinds_asym aabbs) (par__cmpinds_trans aabbs) _

/-- Specification of the modelled par_sprune_update: on a valid context and
well-formed mutated boxes it succeeds, its collision pairs agree with a
fresh par_sprune_overlap on the mutated array, the returned flag is true
exactly when the collision content changed, and validity is preserved (so
the equivalence holds along any chain of mutations and updates). -/
theorem par_sprune_update_spec (newAabbs : Nat → Int) (n : Nat)
    (ctx : par_sprune_context) (hv : CtxValid n ctx)
    (hwf : SpruneWF newAabbs n) :
    ∃ chg ctx2 fresh, par_sprune_update newAabbs ctx = some (chg, ctx2) ∧
      par_sprune_overlap newAabbs n none = some fresh ∧
      ctx2.collision_pairs = fresh.collision_pairs ∧
      ctx2.ncollision_pairs = fresh.ncollision_pairs ∧
      (chg = true ↔ ctx2.collision_pairs ≠ ctx.collision_pairs) ∧
      CtxValid n ctx2 := by
  obtain ⟨hn, hp0, hp1, hcv, hnc⟩ := hv
  have ho0 : par_qsort (par__cmpinds newAabbs) ctx.sorted_indices0 =
      par__axis_events newAabbs n 0 := par__sorted_events_unique hp0
  have ho1 : par_qsort (par__cmpinds newAabbs) ctx.sorted_indices1 =
      par__axis_events newAabbs n 1 := par__sorted_events_unique hp1
  obtain ⟨coll, hcoll, hnd, hpair, hcanon, hiff⟩ :=
    par__collision_spec newAabbs n hwf
  have hfresh : par_sprune_overlap newAabbs n none = some
      { collision_pairs := coll
        ncollision_pairs := (coll.length : Int)
        culled := []
        nculled := 0
        aabbs := newAabbs
        naabbs := n
        sorted_indices0 := par__axis_events newAabbs n 0
        sorted_indices1 := par__axis_events newAabbs n 1
        overlap_flags0 :=
          par__fill_flags n (pa_resize (par__prev_flags none 0) (2 * n) false)
        overlap_flags1 :=
          par__fill_flags n (pa_resize (par__prev_flags none 1) (2 * n) false) } := by
    rw [par_sprune_overlap_eq]
    unfold par__mk_context
    rw [hcoll]
  unfold par_sprune_update
  by_cases hcond : par_qsort (par__cmpinds newAabbs) ctx.sorted_indices0 =
      ctx.sorted_indices0 ∧
      par_qsort (par__cmpinds newAabbs) ctx.sorted_indices1 = ctx.sorted_indices1
  · rw [if_pos hcond]
    have hs0 : ctx.sorted_indices0 = par__axis_events newAabbs n 0 := by
      rw [← hcond.1, ho0]
    have hs1 : ctx.sorted_indices1 = par__axis_events newAabbs n 1 := by
      rw [← hcond.2, ho1]
    have hsame : ctx.collision_pairs = coll := by
      rw [hs0, hs1, hcoll] at hcv
      exact (Option.some.inj hcv).symm
    refine ⟨false, _, _, rfl, hfresh, by simpa using hsame, ?_, by simp, ?_⟩
    · show ctx.ncollision_pairs = (coll.length : Int)
      rw [hnc, hsame]
    · exact ⟨hn, hp0, hp1, hcv, hnc⟩
  · rw [if_neg hcond, ho0, ho1, hcoll]
    refine ⟨_, _, _, rfl, hfresh, rfl, rfl, by rw [decide_eq_true_iff], ?_⟩
    refine ⟨hn, ?_, ?_, ?_, rfl⟩
    · exact par__axis_events_perm newAabbs n 0
    · exact par__axis_events_perm newAabbs n 1
    · rw [hcoll]

theorem par__cull_pick_mem_aux (edges : List (Nat × Nat)) :
    ∀ (vs : List Nat) (acc : Option Nat) (v : Nat),
      vs.foldl (fun acc v => match acc with
        | none => some v
        | some w => if par__cull_better edges v w then some v else some w) acc =
          some v →
      acc = some v ∨ v ∈ vs := by
  intro vs
  induction vs with
  | nil => intro acc v h; exact Or.inl h
  | cons u t ih =>
    intro acc v h
    rw [List.foldl_cons] at h
    cases acc with
    | none =>
      rcases ih (some u) v h with h2 | h2
      · right
        rw [List.mem_cons]
        exact Or.inl (Option.some.inj h2).symm
      · right
        exact List.mem_cons_of_mem u h2
    | some w =>
      dsimp only at h
      by_cases hb : par__cull_better edges u w
      · rw [if_pos hb] at h
        rcases ih (some u) v h with h2 | h2
        · right
          rw [List.mem_cons]
          exact Or.inl (Option.some.inj h2).symm
        · right
          exact List.mem_cons_of_mem u h2
      · rw [if_neg hb] at h
        rcases ih (some w) v h with h2 | h2
        · exact Or.inl h2
        · right
          exact List.mem_cons_of_mem u h2

theorem par__cull_pick_mem {edges : List (Nat × Nat)} {v : Nat}
    (h : par__cull_pick edges = some v) : v ∈ par__cull_vertices edges := by
  rcases par__cull_pick_mem_aux edges (par__cull_vertices edges) none v h with
    h2 | h2
  · exact Option.noConfusion h2
  · exact h2

theorem par__cull_vertices_mem {edges : List (Nat × Nat)} {v : Nat} :
    v ∈ par__cull_vertices edges ↔ ∃ e ∈ edges, e.1 = v ∨ e.2 = v := by
  unfold par__cull_vertices
  rw [List.mem_append, List.mem_map, List.mem_map]
  constructor
  · rintro (⟨e, he, hev⟩ | ⟨e, he, hev⟩)
    · exact ⟨e, he, Or.inl hev⟩
    · exact ⟨e, he, Or.inr hev⟩
  · rintro ⟨e, he, hev | hev⟩
    · exact Or.inl ⟨e, he, hev⟩
    · exact Or.inr ⟨e, he, hev⟩

theorem par__cull_fold_isSome (edges : List (Nat × Nat)) :
    ∀ (vs : List Nat) (w : Nat),
      ∃ v, vs.foldl (fun acc v => match acc with
        | none => some v
        | some w => if par__cull_better edges v w then some v else some w)
        (some w) = some v := by
  intro vs
  induction vs with
  | nil => intro w; exact ⟨w, rfl⟩
  | cons u t ih =>
    intro w
    rw [List.foldl_cons]
    dsimp only
    by_cases hb : par__cull_better edges u w
    · rw [if_pos hb]
      exact ih u
    · rw [if_neg hb]
      exact ih w

theorem par__cull_pick_isSome {edges : List (Nat × Nat)} {p : Nat × Nat}
    (hp : p ∈ edges) : ∃ v, par__cull_pick edges = some v := by
  have hm : p.1 ∈ par__cull_vertices edges :=
    par__cull_vertices_mem.2 ⟨p, hp, Or.inl rfl⟩
  unfold par__cull_pick
  cases hv : par__cull_vertices edges with
  | nil => rw [hv] at hm; simp at hm
  | cons u t =>
    rw [List.foldl_cons]
    exact par__cull_fold_isSome edges t u

theorem par__cull_go_mono :
    ∀ (fuel : Nat) (edges : List (Nat × Nat)) (culled : List Nat),
      ∀ c ∈ culled, c ∈ par__cull_go fuel edges culled := by
  intro fuel
  induction fuel with
  | zero => intro edges culled c hc; exact hc
  | succ fuel ih =>
    intro edges culled c hc
    unfold par__cull_go
    cases hpick : par__cull_pick edges with
    | none => exact hc
    | some v => exact ih _ _ c (List.mem_append.2 (Or.inl hc))

/-- Coverage invariant of the greedy culler: with enough fuel every edge
ends with at least one endpoint in the culled list. -/
theorem par__cull_go_covers :
    ∀ (fuel : Nat) (edges : List (Nat × Nat)) (culled : List Nat),
      edges.length ≤ fuel → ∀ p ∈ edges,
      p.1 ∈ par__cull_go fuel edges culled ∨
        p.2 ∈ par__cull_go fuel edges culled := by
  intro fuel
  induction fuel with
  | zero =>
    intro edges culled hf p hp
    have he : edges = [] := List.eq_nil_of_length_eq_zero (by omega)
    rw [he] at hp
    simp at hp
  | succ fuel ih =>
    intro edges culled hf p hp
    unfold par__cull_go
    cases hpick : par__cull_pick edges with
    | none =>
      exfalso
      obtain ⟨v, hsome⟩ := par__cull_pick_isSome hp
      rw [hpick] at hsome
      exact Option.noConfusion hsome
    | some v =>
      by_cases htouch : p.1 = v ∨ p.2 = v
      · have hv : v ∈ par__cull_go fuel
            (edges.filter (fun e => !(e.1 == v || e.2 == v))) (culled ++ [v]) :=
          par__cull_go_mono fuel _ _ v (by simp)
        rcases htouch with h | h
        · left; rw [h]; exact hv
        · right; rw [h]; exact hv
      · have hp2 : p ∈ edges.filter (fun e => !(e.1 == v || e.2 == v)) := by
          rw [List.mem_filter]
          refine ⟨hp, ?_⟩
          simp only [Bool.not_eq_true', Bool.or_eq_false_iff, beq_eq_false_iff_ne]
          tauto
        have hlen : (edges.filter (fun e => !(e.1 == v || e.2 == v))).length <
            edges.length := by
          rw [List.length_filter_lt_length_iff_exists]
          obtain ⟨e, he, hev⟩ := par__cull_vertices_mem.1 (par__cull_pick_mem hpick)
          refine ⟨e, he, ?_⟩
          rcases hev with hev | hev <;> simp [hev]
        exact ih _ _ (by omega) p hp2

/-- Postcondition of the modelled culler: collision pairs are untouched and
every pair has an endpoint in the culled set. -/
theorem par_sprune_cull_spec (ctx : par_sprune_context) :
    (par_sprune_cull ctx).collision_pairs = ctx.collision_pairs ∧
      ∀ p ∈ (par_sprune_cull ctx).collision_pairs,
        p.1 ∈ (par_sprune_cull ctx).culled ∨
          p.2 ∈ (par_sprune_cull ctx).culled := by
  refine ⟨rfl, ?_⟩
  intro p hp
  exact par__cull_go_covers ctx.collision_pairs.length ctx.collision_pairs []
    (Nat.le_refl _) p hp

-- ---------------------------------------------------------------------------
-- Claims
-- ---------------------------------------------------------------------------

/-- Claim C1, counterexample to the statement as written: for the touching
boxes (0,0,2,2) and (2,0,4,2) the closed-interval overlap condition of the
claim holds on both axes (minX of each is at most maxX of the other, and
the Y analogue), yet par_sprune_overlap reports no collision pair at all:
touching edges are not always reported. -/
theorem overlap_touching_pair_missing :
    (par_sprune_overlap cexBoxes 2 none).map
        (fun c => c.collision_pairs) = some [] ∧
      cexBoxes 0 ≤ cexBoxes 6 ∧ cexBoxes 4 ≤ cexBoxes 2 ∧
      cexBoxes 1 ≤ cexBoxes 7 ∧ cexBoxes 5 ≤ cexBoxes 3 := by
  decide

/-- Claim C1, amended: for well-formed boxes and a canonical pair a less
than b below the count, (a,b) appears in collision_pairs iff on each axis
the lower id's min is at most the higher id's max AND the higher id's min
is STRICTLY below the lower id's max.  The strictness on one side is forced
by the offset tie-break of par__cmpinds, so of two merely touching boxes
the pair is reported exactly when the higher-id box is the one whose max
touches the lower-id box's min. -/
theorem overlap_pairs_iff_axis_overlap (aabbs : Nat → Int) (n : Nat)
    (hwf : SpruneWF aabbs n) (a b : Nat) (hab : a < b) (hbn : b < n) :
    ∃ ctx, par_sprune_overlap aabbs n none = some ctx ∧
      ((a, b) ∈ ctx.collision_pairs ↔
        ((aabbs (4 * a) ≤ aabbs (4 * b + 2) ∧
            aabbs (4 * b) < aabbs (4 * a + 2)) ∧
          (aabbs (4 * a + 1) ≤ aabbs (4 * b + 3) ∧
            aabbs (4 * b + 1) < aabbs (4 * a + 3)))) := by
  obtain ⟨ctx, hctx, -, -, -, hiff, -, -, -, -⟩ :=
    par_sprune_overlap_spec aabbs n hwf none
  refine ⟨ctx, hctx, ?_⟩
  rw [hiff a b]
  unfold par__axis_overlap
  have e1 : 4 * a + 0 = 4 * a := by omega
  have e2 : 4 * b + 2 + 0 = 4 * b + 2 := by omega
  have e3 : 4 * b + 0 = 4 * b := by omega
  have e4 : 4 * a + 2 + 0 = 4 * a + 2 := by omega
  have e5 : 4 * b + 2 + 1 = 4 * b + 3 := by omega
  have e6 : 4 * a + 2 + 1 = 4 * a + 3 := by omega
  rw [e1, e2, e3, e4, e5, e6]
  constructor
  · rintro ⟨-, -, h0, h1⟩
    exact ⟨h0, h1⟩
  · rintro ⟨h0, h1⟩
    exact ⟨hab, hbn, h0, h1⟩

/-- Witness for the amended claim C1 at the design document's concrete
scenario, pair (0,1). -/
theorem overlap_pairs_iff_axis_overlap_witness :
    ∃ ctx, par_sprune_overlap exBoxes3 3 none = some ctx ∧
      ((0, 1) ∈ ctx.collision_pairs ↔
        ((exBoxes3 (4 * 0) ≤ exBoxes3 (4 * 1 + 2) ∧
            exBoxes3 (4 * 1) < exBoxes3 (4 * 0 + 2)) ∧
          (exBoxes3 (4 * 0 + 1) ≤ exBoxes3 (4 * 1 + 3) ∧
            exBoxes3 (4 * 1 + 1) < exBoxes3 (4 * 0 + 3)))) :=
  overlap_pairs_iff_axis_overlap exBoxes3 3 (by decide) 0 1 (by decide) (by decide)

/-- Claim C2 (update equals fresh overlap; spec-modelled, the header
declares but does not implement par_sprune_update): on a valid context
(the state a Create or a previous Update leaves) and well-formed mutated
boxes, Update succeeds, its collision pairs and count equal what a fresh
par_sprune_overlap on the mutated array produces, the returned flag is
true exactly when the collision pair content changed, and validity is
preserved, so the same holds along any chain of in-place mutations. -/
theorem update_matches_fresh_overlap (newAabbs : Nat → Int) (n : Nat)
    (ctx : par_sprune_context) (hv : CtxValid n ctx)
    (hwf : SpruneWF newAabbs n) :
    ∃ chg ctx2 fresh, par_sprune_update newAabbs ctx = some (chg, ctx2) ∧
      par_sprune_overlap newAabbs n none = some fresh ∧
      ctx2.collision_pairs = fresh.collision_pairs ∧
      ctx2.ncollision_pairs = fresh.ncollision_pairs ∧
      (chg = true ↔ ctx2.collision_pairs ≠ ctx.collision_pairs) ∧
      CtxValid n ctx2 :=
  par_sprune_update_spec newAabbs n ctx hv hwf

/-- Witness for claim C2: the context of the two overlapping boxes of
exBoxes2, mutated in place to exBoxes2b (the second box moved away). -/
theorem update_matches_fresh_overlap_witness :
    ∃ chg ctx2 fresh, par_sprune_update exBoxes2b exCtx2 = some (chg, ctx2) ∧
      par_sprune_overlap exBoxes2b 2 none = some fresh ∧
      ctx2.collision_pairs = fresh.collision_pairs ∧
      ctx2.ncollision_pairs = fresh.ncollision_pairs ∧
      (chg = true ↔ ctx2.collision_pairs ≠ exCtx2.collision_pairs) ∧
      CtxValid 2 ctx2 :=
  update_matches_fresh_overlap exBoxes2b 2 exCtx2 (by decide) (by decide)

/-- Claim C3: the collision pair list of par_sprune_overlap is canonical
and ordered: each pair has first below second, no pair occurs twice, and
the pairs ascend strictly in the lexicographic order of (first, second). -/
theorem collision_pairs_canonical_ordered (aabbs : Nat → Int) (n : Nat)
    (hwf : SpruneWF aabbs n) :
    ∃ ctx, par_sprune_overlap aabbs n none = some ctx ∧
      (∀ p ∈ ctx.collision_pairs, p.1 < p.2) ∧
      ctx.collision_pairs.Nodup ∧
      ctx.collision_pairs.Pairwise
        (fun p q => p.1 < q.1 ∨ (p.1 = q.1 ∧ p.2 < q.2)) := by
  obtain ⟨ctx, hctx, hnd, hpair, hcanon, -, -, -, -, -⟩ :=
    par_sprune_overlap_spec aabbs n hwf none
  refine ⟨ctx, hctx, fun p hp => (hcanon p hp).1, hnd, ?_⟩
  refine hpair.imp ?_
  intro p q hpq
  exact hpq

/-- Witness for claim C3 at the design document's concrete scenario. -/
theorem collision_pairs_canonical_ordered_witness :
    ∃ ctx, par_sprune_overlap exBoxes3 3 none = some ctx ∧
      (∀ p ∈ ctx.collision_pairs, p.1 < p.2) ∧
      ctx.collision_pairs.Nodup ∧
      ctx.collision_pairs.Pairwise
        (fun p q => p.1 < q.1 ∨ (p.1 = q.1 ∧ p.2 < q.2)) :=
  collision_pairs_canonical_ordered exBoxes3 3 (by decide)

/-- Claim C4 (culling postcondition; spec-modelled, the header declares but
does not implement par_sprune_cull): par_sprune_cull leaves the collision
pairs untouched and afterwards every collision pair has at least one
endpoint in the culled set: no pair survives with both endpoints outside
it. -/
theorem cull_covers_collision_pairs (ctx : par_sprune_context) :
    (par_sprune_cull ctx).collision_pairs = ctx.collision_pairs ∧
      ∀ p ∈ (par_sprune_cull ctx).collision_pairs,
        p.1 ∈ (par_sprune_cull ctx).culled ∨
          p.2 ∈ (par_sprune_cull ctx).culled :=
  par_sprune_cull_spec ctx

/-- Claim C5 (determinism): two runs of par_sprune_overlap on the same box
array and count with no previous context give the same collision pairs in
the same order and the same count; the whole pipeline is a pure function
of its input. -/
theorem overlap_deterministic (aabbs : Nat → Int) (n : Nat)
    (ctx1 ctx2 : par_sprune_context)
    (h1 : par_sprune_overlap aabbs n none = some ctx1)
    (h2 : par_sprune_overlap aabbs n none = some ctx2) :
    ctx1.collision_pairs = ctx2.collision_pairs ∧
      ctx1.ncollision_pairs = ctx2.ncollision_pairs := by
  rw [h1] at h2
  cases Option.some.inj h2
  exact ⟨rfl, rfl⟩

/-- Witness for claim C5 at the design document's concrete scenario. -/
theorem overlap_deterministic_witness :
    exCtx3.collision_pairs = exCtx3.collision_pairs ∧
      exCtx3.ncollision_pairs = exCtx3.ncollision_pairs :=
  overlap_deterministic exBoxes3 3 exCtx3 exCtx3 rfl rfl

/-- Claim C6 (code bug): par_sprune_overlap performs no validation of a
negative count.  With naabbs below zero the int expression naabbs * 2,
passed as the size_t nel parameter of par_qsort at line 321, converts to an
enormous unsigned value while the event buffer holds zero entries, so the
sort reads far outside the allocation (undefined behavior) instead of
failing cleanly: at naabbs = -1 the sort is told to sort 2^64 - 2 elements
of an empty buffer. -/
theorem overlap_negative_count_oob :
    par__overlap_sort_nel (-1) = 18446744073709551614 ∧
      par__overlap_events_len (-1) = 0 ∧
      par__overlap_sort_nel (-1) ≠ par__overlap_events_len (-1) := by
  refine ⟨?_, rfl, ?_⟩
  · rfl
  · intro h
    rw [show par__overlap_sort_nel (-1) = 18446744073709551614 from rfl] at h
    exact absurd h (by decide)

/-- Claim C7 (context reuse is not semantic): whatever previous context is
passed to par_sprune_overlap, and whatever that context holds, the
collision pairs and their count equal those of a run with no previous
context; reuse only recycles buffers. -/
theorem overlap_reuse_equivalent (aabbs : Nat → Int) (n : Nat)
    (previous : Option par_sprune_context) :
    (par_sprune_overlap aabbs n previous).map
        (fun c => (c.collision_pairs, c.ncollision_pairs)) =
      (par_sprune_overlap aabbs n none).map
        (fun c => (c.collision_pairs, c.ncollision_pairs)) :=
  par_sprune_overlap_prev_eq aabbs n previous

/-- Claim C8 (active-set removal never fails): for well-formed boxes every
max event finds its box in the active set, so the sweep of each axis
returns a result (the none branch models the firing assert of
par_sprune__remove) and par_sprune_overlap always produces a context. -/
theorem sweep_remove_never_fails (aabbs : Nat → Int) (n : Nat)
    (hwf : SpruneWF aabbs n) :
    (∀ axis, axis < 2 →
      (par__sweep axis (par__axis_events aabbs n axis) [] []).isSome = true) ∧
      ∀ previous, (par_sprune_overlap aabbs n previous).isSome = true := by
  constructor
  · intro axis haxis
    obtain ⟨act2, ps, heq, -, -⟩ := par__axis_sweep_spec aabbs n axis haxis hwf
    rw [heq]
    rfl
  · intro previous
    obtain ⟨ctx, hctx, -⟩ := par_sprune_overlap_spec aabbs n hwf previous
    rw [hctx]
    rfl

/-- Witness for claim C8 at the design document's concrete scenario. -/
theorem sweep_remove_never_fails_witness :
    (par_sprune_overlap exBoxes3 3 none).isSome = true :=
  (sweep_remove_never_fails exBoxes3 3 (by decide)).2 none

/-- Claim C9 (degenerate counts): with zero boxes or one box, and the box
well-formed, par_sprune_overlap succeeds with an empty collision pair
sequence and a zero count. -/
theorem overlap_small_count_empty (aabbs : Nat → Int) (n : Nat)
    (hn : n ≤ 1) (hwf : SpruneWF aabbs n) :
    ∃ ctx, par_sprune_overlap aabbs n none = some ctx ∧
      ctx.collision_pairs = [] ∧ ctx.ncollision_pairs = 0 := by
  obtain ⟨ctx, hctx, -, -, hcanon, -, hnc, -, -, -⟩ :=
    par_sprune_overlap_spec aabbs n hwf none
  have hempty : ctx.collision_pairs = [] := by
    rw [List.eq_nil_iff_forall_not_mem]
    intro p hp
    have h2 := hcanon p hp
    omega
  refine ⟨ctx, hctx, hempty, ?_⟩
  rw [hnc, hempty]
  rfl

/-- Witness for claim C9 with the single box of exBoxes1. -/
theorem overlap_small_count_empty_witness :
    ∃ ctx, par_sprune_overlap exBoxes1 1 none = some ctx ∧
      ctx.collision_pairs = [] ∧ ctx.ncollision_pairs = 0 :=
  overlap_small_count_empty exBoxes1 1 (by decide) (by decide)

/-- Claim C10 (par_qsort is correct): for every element type, list and
comparator that behaves like a total order (asymmetric and transitive on
its sign), par_qsort returns a permutation of its input that is
non-decreasing under the comparator. -/
theorem par_qsort_sorts_and_permutes {α : Type} (cmp : α → α → Int)
    (l : List α) (hA : ∀ a b, 0 < cmp a b → cmp b a ≤ 0)
    (hT : ∀ a b c, cmp a b ≤ 0 → cmp b c ≤ 0 → cmp a c ≤ 0) :
    (par_qsort cmp l).Perm l ∧
      (par_qsort cmp l).Pairwise (fun a b => cmp a b ≤ 0) :=
  ⟨par_qsort_perm cmp l, par_qsort_sorted hA hT l⟩

/-- Witness for claim C10: par__cmppairs on a concrete pair list. -/
theorem par_qsort_sorts_and_permutes_witness :
    (par_qsort par__cmppairs [(2, 3), (0, 5), (0, 1), (2, 1)]).Perm
        [(2, 3), (0, 5), (0, 1), (2, 1)] ∧
      (par_qsort par__cmppairs [(2, 3), (0, 5), (0, 1), (2, 1)]).Pairwise
        (fun a b => par__cmppairs a b ≤ 0) :=
  par_qsort_sorts_and_permutes par__cmppairs [(2, 3), (0, 5), (0, 1), (2, 1)]
    par__cmppairs_asym par__cmppairs_trans

-- ---------------------------------------------------------------------------
-- Worked scenarios of the design document (section 8), checked by
-- evaluation
-- ---------------------------------------------------------------------------

/-- Boxes (0,0,2,2), (1,1,3,3), (5,5,6,6) yield exactly the collision pair
(0,1). -/
theorem scenario_three_boxes :
    (par_sprune_overlap exBoxes3 3 none).map (fun c => c.collision_pairs) =
      some [(0, 1)] := by
  decide

/-- Culling a single pair removes the smaller id. -/
theorem scenario_cull_single_pair : par__cull_go 1 [(0, 1)] [] = [0] := by
  decide

/-- Culling the triangle of three mutually overlapping boxes removes boxes
0 and 1 (greedy max degree, ties to the smaller id). -/
theorem scenario_cull_triangle :
    par__cull_go 3 [(0, 1), (0, 2), (1, 2)] [] = [0, 1] := by
  decide

/-- The mirror touching configuration of the C1 counterexample: with the
box ids swapped the pair is reported, confirming the amended asymmetric
semantics. -/
theorem scenario_touching_swapped :
    (par_sprune_overlap
        (fun k => ([2, 0, 4, 2, 0, 0, 2, 2] : List Int).getD k 0) 2 none).map
      (fun c => c.collision_pairs) = some [(0, 1)] := by
  decide
